import Mathlib

/-!
Verification development for the kvkit toolkit: an ordered key/value layer
(`kyoto.py` cursors and slices, `helpers.py` slice normalisation), typed field
codecs and the secondary-index / query layer (`query.py`), and the Hexastore
triple store (`graph.py`).

Python 2 byte strings (`str`) are modelled as `List Nat` (byte sequences)
ordered lexicographically; the ordered KV store is a key-sorted association
list.  Machine integers use `Int`/`Nat` with explicit `% 2 ^ 64` where the
code packs fixed-width values; IEEE-754 doubles are modelled by their 64-bit
patterns (what `struct.pack` transports) together with the rational value a
non-negative finite pattern denotes.  Fallible Python code (raising
`ValueError`/`KeyError`) returns `Option`/`Except`.
-/

namespace KVKit

/-- Byte strings: Python 2 `str`.  Bytes are `Nat`s below 256. -/
abbrev Bytes := List Nat

/-- Bytes of an ASCII string literal (all characters used are below 256,
so the codepoint is the byte). -/
def bytesOf (s : String) : Bytes := s.toList.map Char.toNat

/-- The ordered KV store: a list of key/value pairs, kept sorted by key. -/
abbrev DB := List (Bytes × Bytes)

/-- Well-formedness of a store: keys strictly ascending (hence unique). -/
def DBSorted (db : DB) : Prop := db.Pairwise (fun a b => a.1 < b.1)

instance (db : DB) : Decidable (DBSorted db) := by
  unfold DBSorted
  infer_instance

/-- Point lookup (`db.get`): first binding of the key, if any. -/
def dbGet : DB → Bytes → Option Bytes
  | [], _ => none
  | (k', v') :: t, k => if k' = k then some v' else dbGet t k

/-- Point write (`db.set` / `db[key] = value`), keeping keys sorted. -/
def dbPut (db : DB) (k v : Bytes) : DB :=
  match db with
  | [] => [(k, v)]
  | (k', v') :: t =>
    if k < k' then (k, v) :: (k', v') :: t
    else if k = k' then (k, v) :: t
    else (k', v') :: dbPut t k v

/-- Point delete (`db.remove` / `del db[key]`); removing a missing key is a
no-op, as in the kyotocabinet binding.  Keys are unique in a well-formed
store, so dropping every binding of the key models single-record removal. -/
def dbDel : DB → Bytes → DB
  | [], _ => []
  | (k', v') :: t, k => if k' = k then dbDel t k else (k', v') :: dbDel t k

/-- Bulk write (`db.set_bulk` / `Database.update`): apply every binding. -/
def dbUpdate (db : DB) (data : List (Bytes × Bytes)) : DB :=
  data.foldl (fun d kv => dbPut d kv.1 kv.2) db

/-! ### Lexicographic order: bridging lemmas for byte strings -/

theorem bytes_lt_iff {l1 l2 : Bytes} : l1 < l2 ↔ List.Lex (· < ·) l1 l2 := Iff.rfl

theorem bytes_le_iff {l1 l2 : Bytes} : l1 ≤ l2 ↔ (l1 = l2 ∨ l1 < l2) := Iff.rfl

theorem lex_cons_iff {a b : Nat} {l1 l2 : Bytes} :
    ((a :: l1 : Bytes) < b :: l2) ↔ a < b ∨ (a = b ∧ l1 < l2) := by
  rw [bytes_lt_iff]
  constructor
  · intro h
    cases h with
    | cons h => exact Or.inr ⟨rfl, h⟩
    | rel h => exact Or.inl h
  · rintro (h | ⟨rfl, h⟩)
    · exact List.Lex.rel h
    · exact List.Lex.cons h

theorem lex_append_left_iff {s t1 t2 : Bytes} : ((s ++ t1 : Bytes) < s ++ t2) ↔ t1 < t2 := by
  induction s with
  | nil => rfl
  | cons a s ih => simpa [lex_cons_iff] using ih

theorem lex_append_of_length_eq {l1 l2 u w : Bytes}
    (hlen : l1.length = l2.length) (h : l1 < l2) : (l1 ++ u : Bytes) < l2 ++ w := by
  induction l1 generalizing l2 with
  | nil =>
    cases l2 with
    | nil => exact absurd h (lt_irrefl _)
    | cons b t2 => simp at hlen
  | cons a t1 ih =>
    cases l2 with
    | nil => simp at hlen
    | cons b t2 =>
      rcases lex_cons_iff.1 h with hab | ⟨rfl, ht⟩
      · exact lex_cons_iff.2 (Or.inl hab)
      · exact lex_cons_iff.2 (Or.inr ⟨rfl, ih (by simpa using hlen) ht⟩)

theorem bytes_lt_append_self {s t : Bytes} (ht : t ≠ []) : s < s ++ t := by
  induction s with
  | nil =>
    cases t with
    | nil => exact absurd rfl ht
    | cons c u => exact List.Lex.nil
  | cons a s ih => exact lex_cons_iff.2 (Or.inr ⟨rfl, ih⟩)

/-! ### Store lemmas -/

theorem mem_dbPut {db : DB} {k v : Bytes} {x : Bytes × Bytes} (h : x ∈ dbPut db k v) :
    x = (k, v) ∨ x ∈ db := by
  induction db with
  | nil => simpa [dbPut] using h
  | cons hd t ih =>
    obtain ⟨k', v'⟩ := hd
    by_cases h1 : k < k'
    · simp only [dbPut, if_pos h1, List.mem_cons] at h
      rcases h with h | h | h
      · exact Or.inl h
      · exact Or.inr (List.mem_cons.2 (Or.inl h))
      · exact Or.inr (List.mem_cons.2 (Or.inr h))
    · by_cases h2 : k = k'
      · simp only [dbPut, if_neg h1, if_pos h2, List.mem_cons] at h
        rcases h with h | h
        · exact Or.inl h
        · exact Or.inr (List.mem_cons.2 (Or.inr h))
      · simp only [dbPut, if_neg h1, if_neg h2, List.mem_cons] at h
        rcases h with h | h
        · exact Or.inr (List.mem_cons.2 (Or.inl h))
        · rcases ih h with h | h
          · exact Or.inl h
          · exact Or.inr (List.mem_cons.2 (Or.inr h))

theorem dbSorted_dbPut {db : DB} (hdb : DBSorted db) (k v : Bytes) :
    DBSorted (dbPut db k v) := by
  unfold DBSorted at hdb ⊢
  induction db with
  | nil => simp [dbPut]
  | cons hd t ih =>
    obtain ⟨k', v'⟩ := hd
    rcases List.pairwise_cons.1 hdb with ⟨hhd, ht⟩
    by_cases h1 : k < k'
    · rw [dbPut, if_pos h1]
      refine List.pairwise_cons.2 ⟨?_, hdb⟩
      intro y hy
      rcases List.mem_cons.1 hy with rfl | hy
      · exact h1
      · exact lt_trans h1 (hhd y hy)
    · by_cases h2 : k = k'
      · subst h2
        rw [dbPut, if_neg h1, if_pos rfl]
        exact List.pairwise_cons.2 ⟨hhd, ht⟩
      · have hk : k' < k := by
          rcases lt_trichotomy k k' with h | h | h
          · exact absurd h h1
          · exact absurd h h2
          · exact h
        rw [dbPut, if_neg h1, if_neg h2]
        refine List.pairwise_cons.2 ⟨?_, ih ht⟩
        intro y hy
        rcases mem_dbPut hy with rfl | hy
        · exact hk
        · exact hhd y hy

theorem dbGet_dbPut_self (db : DB) (k v : Bytes) : dbGet (dbPut db k v) k = some v := by
  induction db with
  | nil => simp [dbPut, dbGet]
  | cons hd t ih =>
    obtain ⟨k', v'⟩ := hd
    by_cases h1 : k < k'
    · simp [dbPut, if_pos h1, dbGet]
    · by_cases h2 : k = k'
      · simp [dbPut, if_neg h1, if_pos h2, dbGet]
      · have hne : ¬ (k' = k) := fun h => h2 h.symm
        rw [dbPut, if_neg h1, if_neg h2, dbGet, if_neg hne]
        exact ih

theorem dbGet_dbPut_other (db : DB) {k k' : Bytes} (v : Bytes) (h : k' ≠ k) :
    dbGet (dbPut db k v) k' = dbGet db k' := by
  have hne : ¬ (k = k') := fun hh => h hh.symm
  induction db with
  | nil => simp [dbPut, dbGet, hne]
  | cons hd t ih =>
    obtain ⟨k1, v1⟩ := hd
    by_cases h1 : k < k1
    · simp [dbPut, if_pos h1, dbGet, hne]
    · by_cases h2 : k = k1
      · subst h2
        simp [dbPut, if_neg h1, dbGet, hne]
      · rw [dbPut, if_neg h1, if_neg h2]
        by_cases h3 : k1 = k'
        · simp [dbGet, h3]
        · simp only [dbGet, if_neg h3]
          exact ih

theorem dbGet_dbDel (db : DB) (k k' : Bytes) :
    dbGet (dbDel db k) k' = if k' = k then none else dbGet db k' := by
  induction db with
  | nil => simp [dbDel, dbGet]
  | cons hd t ih =>
    obtain ⟨k1, v1⟩ := hd
    by_cases h1 : k1 = k
    · subst h1
      rw [dbDel, if_pos rfl, ih]
      by_cases hk : k' = k1
      · simp [hk]
      · simp [hk, dbGet, show ¬ (k1 = k') from fun h => hk h.symm]
    · rw [dbDel, if_neg h1, dbGet]
      by_cases h2 : k1 = k'
      · have hk : ¬ (k' = k) := fun h => h1 (h2.trans h)
        rw [if_pos h2, if_neg hk, dbGet, if_pos h2]
      · rw [if_neg h2, ih]
        by_cases hk : k' = k
        · simp [hk]
        · simp [hk, dbGet, if_neg h2]

theorem mem_dbDel {db : DB} {k : Bytes} {x : Bytes × Bytes} (h : x ∈ dbDel db k) : x ∈ db := by
  induction db with
  | nil => simp [dbDel] at h
  | cons hd t ih =>
    obtain ⟨k1, v1⟩ := hd
    by_cases h1 : k1 = k
    · rw [dbDel, if_pos h1] at h
      exact List.mem_cons.2 (Or.inr (ih h))
    · rw [dbDel, if_neg h1] at h
      rcases List.mem_cons.1 h with rfl | h2
      · exact List.mem_cons.2 (Or.inl rfl)
      · exact List.mem_cons.2 (Or.inr (ih h2))

theorem dbSorted_dbDel {db : DB} (hdb : DBSorted db) (k : Bytes) : DBSorted (dbDel db k) := by
  unfold DBSorted at hdb ⊢
  induction db with
  | nil => simp [dbDel]
  | cons hd t ih =>
    obtain ⟨k1, v1⟩ := hd
    rcases List.pairwise_cons.1 hdb with ⟨hhd, ht⟩
    by_cases h1 : k1 = k
    · rw [dbDel, if_pos h1]
      exact ih ht
    · rw [dbDel, if_neg h1]
      exact List.pairwise_cons.2 ⟨fun y hy => hhd y (mem_dbDel hy), ih ht⟩

theorem dbSorted_dbUpdate {db : DB} (hdb : DBSorted db) (data : List (Bytes × Bytes)) :
    DBSorted (dbUpdate db data) := by
  induction data generalizing db with
  | nil => exact hdb
  | cons hd t ih => exact ih (dbSorted_dbPut hdb hd.1 hd.2)

theorem dbGet_dbUpdate_notMem (db : DB) {data : List (Bytes × Bytes)} {k : Bytes}
    (h : ∀ kv ∈ data, kv.1 ≠ k) : dbGet (dbUpdate db data) k = dbGet db k := by
  induction data generalizing db with
  | nil => rfl
  | cons hd t ih =>
    have hhd : hd.1 ≠ k := h hd (by simp)
    rw [dbUpdate, List.foldl_cons]
    have := ih (dbPut db hd.1 hd.2) (fun kv hkv => h kv (by simp [hkv]))
    rw [dbUpdate] at this
    rw [this, dbGet_dbPut_other db hd.2 (Ne.symm hhd)]

theorem dbGet_dbUpdate_mem (db : DB) {data : List (Bytes × Bytes)} {k v : Bytes}
    (hmem : (k, v) ∈ data) (huniq : data.Pairwise (fun a b => a.1 ≠ b.1)) :
    dbGet (dbUpdate db data) k = some v := by
  induction data generalizing db with
  | nil => simp at hmem
  | cons hd t ih =>
    rcases List.pairwise_cons.1 huniq with ⟨hhd, ht⟩
    rcases List.mem_cons.1 hmem with heq | hmem'
    · subst heq
      rw [dbUpdate, List.foldl_cons]
      have hall : ∀ kv ∈ t, kv.1 ≠ k := fun kv hkv => (hhd kv hkv).symm
      have := dbGet_dbUpdate_notMem (dbPut db k v) hall
      rw [dbUpdate] at this
      rw [this, dbGet_dbPut_self]
    · rw [dbUpdate, List.foldl_cons]
      exact ih (dbPut db hd.1 hd.2) hmem' ht

/-! ### Slices: kyoto.py `Database.get_slice` / `get_slice_rev`, helpers.py
`clean_key_slice`, `Cursor.fetch_until`.

Slice endpoints are `Option Bytes`, with `none` standing for Python `None`.
Python 2 orders `None` below every byte string, which the `py…Opt`
comparisons reproduce.  An empty byte string endpoint is falsy in Python,
which skips the `ValueError` guards of `get_slice`/`get_slice_rev`. -/

/-- Python 2 `start > end` where `end` may be `None` (`None` sorts lowest). -/
def pyGtOpt (s : Bytes) (o : Option Bytes) : Prop :=
  match o with
  | none => True
  | some e => e < s

instance (s : Bytes) : (o : Option Bytes) → Decidable (pyGtOpt s o)
  | none => isTrue trivial
  | some e => inferInstanceAs (Decidable (e < s))

/-- Python 2 `start < end` where `end` may be `None`. -/
def pyLtOpt (s : Bytes) (o : Option Bytes) : Prop :=
  match o with
  | none => False
  | some e => s < e

instance (s : Bytes) : (o : Option Bytes) → Decidable (pyLtOpt s o)
  | none => isFalse id
  | some e => inferInstanceAs (Decidable (s < e))

/-- `Cursor.fetch_until` on a forward cursor (`compare = operator.ge`): when
the current key reaches the bound the bound itself is yielded if equal and the
scan stops.  A `none` bound reproduces Python 2 `key >= None` (always true),
stopping at once. -/
def fetchUntilFwd : List (Bytes × Bytes) → Option Bytes → List (Bytes × Bytes)
  | [], _ => []
  | _ :: _, none => []
  | (k, v) :: t, some e =>
    if e ≤ k then (if k = e then [(k, v)] else []) else (k, v) :: fetchUntilFwd t (some e)

/-- `Cursor.fetch_until` on a reverse cursor (`compare = operator.le`).  A
`none` bound reproduces Python 2 `key <= None` (always false), so the scan
runs to exhaustion. -/
def fetchUntilRev : List (Bytes × Bytes) → Option Bytes → List (Bytes × Bytes)
  | [], _ => []
  | (k, v) :: t, none => (k, v) :: fetchUntilRev t none
  | (k, v) :: t, some e =>
    if k ≤ e then (if k = e then [(k, v)] else []) else (k, v) :: fetchUntilRev t (some e)

/-- Index of the first entry satisfying `p`.  On a key-sorted store this is
`Cursor.seek` (kyotocabinet `jump`): position at the smallest key not below
the target, failing when every key is below it. -/
def seekIdx (p : Bytes × Bytes → Bool) : List (Bytes × Bytes) → Option Nat
  | [] => none
  | x :: t => if p x then some 0 else (seekIdx p t).map (· + 1)

/-- The entries a reverse scan started at `start` walks over, in store order:
seek to `start`; on overshoot step back once — but only under the source's
full guard `if res and start and res[0] > start`, so a falsy (empty) `start`
never steps back and the scan begins at the record the seek landed on; on
seek failure position at the last record.  The cursor then walks backwards,
so the scanned sequence is the reverse of this list. -/
def revCandidates (db : DB) (s : Bytes) : List (Bytes × Bytes) :=
  match seekIdx (fun kv => decide (s ≤ kv.1)) db with
  | none => db
  | some j =>
    match db.drop j with
    | [] => db
    | (k, _) :: _ => if s ≠ [] ∧ s < k then db.take j else db.take (j + 1)

/-- `Database.get_slice`: `ValueError` (`none`) when a truthy `start` exceeds
`end`; else seek to `start` (or `first()` when absent) and fetch forward until
`end`. -/
def getSlice (db : DB) (start stop : Option Bytes) : Option (List (Bytes × Bytes)) :=
  match start with
  | some s =>
    if s ≠ [] ∧ pyGtOpt s stop then none
    else some (fetchUntilFwd (db.dropWhile (fun kv => decide (kv.1 < s))) stop)
  | none => some (fetchUntilFwd db stop)

/-- `Database.get_slice_rev`: `ValueError` (`none`) when a truthy `start` is
below `end`; else seek to `start` (`last()` when absent or on seek failure),
step back once on overshoot, and fetch backwards until `end`. -/
def getSliceRev (db : DB) (start stop : Option Bytes) : Option (List (Bytes × Bytes)) :=
  match start with
  | some s =>
    if s ≠ [] ∧ pyLtOpt s stop then none
    else some (fetchUntilRev (revCandidates db s).reverse stop)
  | none => some (fetchUntilRev db.reverse stop)

/-- `Option Bytes` strict comparison used inside `clean_key_slice`; the
callers guard it with `none_empty`, so only the both-present case matters. -/
def optLtb (a b : Option Bytes) : Bool :=
  match a, b with
  | some x, some y => decide (x < y)
  | _, _ => false

/-- helpers.py `clean_key_slice`: normalise `(start, stop, step)` into
`(start, stop, reverse)`.  `step` is the Python slice step used as a reverse
flag; with both endpoints present and `start > stop`, reverse orientation is
inferred. -/
def cleanKeySlice (start stop : Option Bytes) (step : Bool) :
    Option Bytes × Option Bytes × Bool :=
  let first := start.isNone
  let last := stop.isNone
  let oneEmpty := (first && !last) || (last && !first)
  let noneEmpty := !first && !last
  let q :=
    if step then
      let p := if oneEmpty then (stop, start) else (start, stop)
      if noneEmpty && optLtb p.1 p.2 then (p.2, p.1) else p
    else (start, stop)
  let reverse := if noneEmpty && optLtb q.2 q.1 then true else step
  (q.1, q.2, reverse)

/-- `Database.__getitem__` with a slice key: normalise through
`clean_key_slice` and dispatch to the forward or reverse scan. -/
def dbSlice (db : DB) (start stop : Option Bytes) (step : Bool) :
    Option (List (Bytes × Bytes)) :=
  match cleanKeySlice start stop step with
  | (s, e, true) => getSliceRev db s e
  | (s, e, false) => getSlice db s e

/-! ### Slice characterisation over sorted stores -/

theorem fetchUntilFwd_eq_filter {l : List (Bytes × Bytes)}
    (hl : l.Pairwise (fun a b => a.1 < b.1)) (e : Bytes) :
    fetchUntilFwd l (some e) = l.filter (fun kv => decide (kv.1 ≤ e)) := by
  induction l with
  | nil => rfl
  | cons hd t ih =>
    obtain ⟨k, v⟩ := hd
    rcases List.pairwise_cons.1 hl with ⟨hhd, ht⟩
    by_cases h1 : e ≤ k
    · have htnil : t.filter (fun kv => decide (kv.1 ≤ e)) = [] := by
        refine List.filter_eq_nil_iff.2 ?_
        intro kv hkv
        simpa using not_le_of_lt (lt_of_le_of_lt h1 (hhd kv hkv))
      by_cases h2 : k = e
      · subst h2
        rw [fetchUntilFwd, if_pos h1, if_pos rfl]
        simp [htnil]
      · have hke : ¬ (k ≤ e) := fun hle => h2 (le_antisymm hle h1)
        rw [fetchUntilFwd, if_pos h1, if_neg h2]
        simp [hke, htnil]
    · have hke : k ≤ e := le_of_lt (lt_of_not_le h1)
      rw [fetchUntilFwd, if_neg h1]
      simp [hke, ih ht]

theorem fetchUntilRev_eq_filter {l : List (Bytes × Bytes)}
    (hl : l.Pairwise (fun a b => b.1 < a.1)) (e : Bytes) :
    fetchUntilRev l (some e) = l.filter (fun kv => decide (e ≤ kv.1)) := by
  induction l with
  | nil => rfl
  | cons hd t ih =>
    obtain ⟨k, v⟩ := hd
    rcases List.pairwise_cons.1 hl with ⟨hhd, ht⟩
    by_cases h1 : k ≤ e
    · have htnil : t.filter (fun kv => decide (e ≤ kv.1)) = [] := by
        refine List.filter_eq_nil_iff.2 ?_
        intro kv hkv
        simpa using not_le_of_lt (lt_of_lt_of_le (hhd kv hkv) h1)
      by_cases h2 : k = e
      · subst h2
        rw [fetchUntilRev, if_pos h1, if_pos rfl]
        simp [htnil]
      · have hke : ¬ (e ≤ k) := fun hle => h2 (le_antisymm h1 hle)
        rw [fetchUntilRev, if_pos h1, if_neg h2]
        simp [hke, htnil]
    · have hke : e ≤ k := le_of_lt (lt_of_not_le h1)
      rw [fetchUntilRev, if_neg h1]
      simp [hke, ih ht]

theorem dropWhile_lt_eq_filter {l : List (Bytes × Bytes)}
    (hl : l.Pairwise (fun a b => a.1 < b.1)) (s : Bytes) :
    l.dropWhile (fun kv => decide (kv.1 < s)) = l.filter (fun kv => decide (s ≤ kv.1)) := by
  induction l with
  | nil => rfl
  | cons hd t ih =>
    obtain ⟨k, v⟩ := hd
    rcases List.pairwise_cons.1 hl with ⟨hhd, ht⟩
    by_cases h1 : k < s
    · have : ¬ (s ≤ k) := not_le_of_lt h1
      simp [List.dropWhile, List.filter, h1, this, ih ht]
    · have hk : s ≤ k := le_of_not_lt h1
      have hrest : t.filter (fun kv => decide (s ≤ kv.1)) = t := by
        refine List.filter_eq_self.2 ?_
        intro kv hkv
        simpa using le_of_lt (lt_of_le_of_lt hk (hhd kv hkv))
      simp [List.dropWhile, List.filter, h1, hk, hrest]

theorem takeWhile_le_eq_filter {l : List (Bytes × Bytes)}
    (hl : l.Pairwise (fun a b => a.1 < b.1)) (s : Bytes) :
    l.takeWhile (fun kv => decide (kv.1 ≤ s)) = l.filter (fun kv => decide (kv.1 ≤ s)) := by
  induction l with
  | nil => rfl
  | cons hd t ih =>
    obtain ⟨k, v⟩ := hd
    rcases List.pairwise_cons.1 hl with ⟨hhd, ht⟩
    by_cases h1 : k ≤ s
    · simp [List.takeWhile, List.filter, h1, ih ht]
    · have hrest : t.filter (fun kv => decide (kv.1 ≤ s)) = [] := by
        refine List.filter_eq_nil_iff.2 ?_
        intro kv hkv
        have : s < kv.1 := lt_trans (lt_of_not_le h1) (hhd kv hkv)
        simpa using not_le_of_lt this
      simp [List.takeWhile, List.filter, h1, hrest]

theorem seekIdx_eq_none_forall {p : Bytes × Bytes → Bool} {l : List (Bytes × Bytes)}
    (h : seekIdx p l = none) : ∀ x ∈ l, p x = false := by
  induction l with
  | nil => intro x hx; simp at hx
  | cons hd t ih =>
    intro x hx
    by_cases hp : p hd
    · rw [seekIdx, if_pos hp] at h
      simp at h
    · rw [seekIdx, if_neg hp] at h
      rcases List.mem_cons.1 hx with rfl | hx
      · simpa using hp
      · exact ih (by simpa using h) x hx

theorem takeWhile_eq_self_of_forall {p : Bytes × Bytes → Bool} {l : List (Bytes × Bytes)}
    (h : ∀ x ∈ l, p x = true) : l.takeWhile p = l := by
  induction l with
  | nil => rfl
  | cons hd t ih =>
    have hp := h hd (by simp)
    simp [List.takeWhile, hp, ih (fun x hx => h x (by simp [hx]))]

theorem seekIdx_drop {p : Bytes × Bytes → Bool} {l : List (Bytes × Bytes)} {j : Nat}
    (h : seekIdx p l = some j) : ∃ x rest, l.drop j = x :: rest ∧ p x = true := by
  induction l generalizing j with
  | nil => simp [seekIdx] at h
  | cons hd t ih =>
    by_cases hp : p hd
    · rw [seekIdx, if_pos hp] at h
      obtain rfl : 0 = j := by simpa using h
      exact ⟨hd, t, rfl, hp⟩
    · rw [seekIdx, if_neg hp] at h
      rcases Option.map_eq_some'.1 h with ⟨j', hj', rfl⟩
      rcases ih hj' with ⟨x, rest, hdrop, hpx⟩
      exact ⟨x, rest, by simpa using hdrop, hpx⟩

theorem revCandidates_eq_of_seek {db : DB} {s : Bytes} {j : Nat} {x : Bytes × Bytes}
    {rest : List (Bytes × Bytes)}
    (hseek : seekIdx (fun kv => decide (s ≤ kv.1)) db = some j)
    (hdrop : db.drop j = x :: rest) :
    revCandidates db s = if s ≠ [] ∧ s < x.1 then db.take j else db.take (j + 1) := by
  obtain ⟨xk, xv⟩ := x
  simp only [revCandidates, hseek, hdrop]

theorem revCandidates_eq_of_seek_fail {db : DB} {s : Bytes}
    (hseek : seekIdx (fun kv => decide (s ≤ kv.1)) db = none) :
    revCandidates db s = db := by
  simp only [revCandidates, hseek]

theorem revCandidates_eq_takeWhile {db : DB} (hdb : DBSorted db) (s : Bytes) (hs : s ≠ []) :
    revCandidates db s = db.takeWhile (fun kv => decide (kv.1 ≤ s)) := by
  unfold DBSorted at hdb
  induction db with
  | nil => rfl
  | cons hd t ih =>
    obtain ⟨k, v⟩ := hd
    rcases List.pairwise_cons.1 hdb with ⟨hhd, ht⟩
    by_cases h1 : s ≤ k
    · have hseek : seekIdx (fun kv => decide (s ≤ kv.1)) ((k, v) :: t) = some 0 := by
        rw [seekIdx, if_pos (by simpa using h1)]
      rw [revCandidates_eq_of_seek hseek rfl]
      by_cases h2 : s < k
      · have hk : ¬ (k ≤ s) := not_le_of_lt h2
        simp [hs, h2, List.takeWhile, hk]
      · have hk : k = s := le_antisymm (le_of_not_lt h2) h1
        subst hk
        have htw : t.takeWhile (fun kv => decide (kv.1 ≤ k)) = [] := by
          cases t with
          | nil => rfl
          | cons x t2 =>
            have : ¬ (x.1 ≤ k) := not_le_of_lt (hhd x (by simp))
            simp [List.takeWhile, this]
        simp [h2, List.takeWhile, htw]
    · have hk : k ≤ s := le_of_lt (lt_of_not_le h1)
      cases hseek : seekIdx (fun kv => decide (s ≤ kv.1)) t with
      | none =>
        have hall : ∀ x ∈ t, (fun kv => decide (kv.1 ≤ s)) x = true := by
          intro x hx
          have := seekIdx_eq_none_forall hseek x hx
          simp only [decide_eq_false_iff_not] at this
          simpa using le_of_lt (lt_of_not_le this)
        have hseek2 : seekIdx (fun kv => decide (s ≤ kv.1)) ((k, v) :: t) = none := by
          rw [seekIdx, if_neg (by simpa using h1), hseek]
          rfl
        rw [revCandidates_eq_of_seek_fail hseek2]
        rw [List.takeWhile, takeWhile_eq_self_of_forall hall]
        simp [hk]
      | some j =>
        have hseek2 : seekIdx (fun kv => decide (s ≤ kv.1)) ((k, v) :: t) = some (j + 1) := by
          rw [seekIdx, if_neg (by simpa using h1), hseek]
          rfl
        rcases seekIdx_drop hseek with ⟨x, rest, hdrop, hpx⟩
        have hih := ih ht
        rw [revCandidates_eq_of_seek hseek hdrop] at hih
        have hdrop2 : List.drop (j + 1) ((k, v) :: t) = x :: rest := by simpa using hdrop
        rw [revCandidates_eq_of_seek hseek2 hdrop2]
        rw [List.takeWhile]
        simp only [hk, decide_eq_true_eq, decide_True, if_true]
        by_cases hx1 : s < x.1
        · rw [if_pos ⟨hs, hx1⟩] at hih ⊢
          rw [List.take_succ_cons, hih]
        · rw [if_neg (fun hc => hx1 hc.2)] at hih ⊢
          rw [List.take_succ_cons, hih]

theorem getSlice_sorted {db : DB} (hdb : DBSorted db) {a b : Bytes} (hab : a ≤ b) :
    getSlice db (some a) (some b) =
      some (db.filter (fun kv => decide (a ≤ kv.1 ∧ kv.1 ≤ b))) := by
  have hguard : ¬ (a ≠ [] ∧ pyGtOpt a (some b)) := by
    rintro ⟨-, h⟩
    simp only [pyGtOpt] at h
    exact (not_lt_of_le hab) h
  rw [getSlice, if_neg hguard]
  rw [dropWhile_lt_eq_filter hdb a]
  have hsorted2 : (db.filter (fun kv => decide (a ≤ kv.1))).Pairwise (fun x y => x.1 < y.1) :=
    List.Pairwise.filter _ hdb
  rw [fetchUntilFwd_eq_filter hsorted2 b]
  rw [List.filter_filter]
  congr 1
  apply List.filter_congr
  intro kv _
  simp [Bool.and_comm]

theorem getSliceRev_sorted {db : DB} (hdb : DBSorted db) {a b : Bytes} (hab : a ≤ b)
    (hb : b ≠ []) :
    getSliceRev db (some b) (some a) =
      some ((db.filter (fun kv => decide (a ≤ kv.1 ∧ kv.1 ≤ b))).reverse) := by
  have hguard : ¬ (b ≠ [] ∧ pyLtOpt b (some a)) := by
    rintro ⟨-, h⟩
    simp only [pyLtOpt] at h
    exact (not_lt_of_le hab) h
  rw [getSliceRev, if_neg hguard]
  rw [revCandidates_eq_takeWhile hdb b hb, takeWhile_le_eq_filter hdb b]
  have hs1 : (db.filter (fun kv => decide (kv.1 ≤ b))).Pairwise (fun x y => x.1 < y.1) :=
    List.Pairwise.filter _ hdb
  have hs2 : ((db.filter (fun kv => decide (kv.1 ≤ b))).reverse).Pairwise
      (fun x y => y.1 < x.1) := by
    rw [List.pairwise_reverse]
    exact hs1
  rw [fetchUntilRev_eq_filter hs2 a]
  rw [← List.filter_reverse]
  rw [List.filter_filter]
  rw [List.filter_reverse]
  refine congrArg _ (congrArg List.reverse ?_)
  apply List.filter_congr
  intro kv _
  simp [Bool.and_comm]

/-- C2 counterexample: over the one-record store `{"x"}`, the reverse slice
with both endpoints the empty string — inside the claim's quantification
`a ≤ b` — yields the out-of-range record `"x"`: the overshoot correction
`if res and start and res[0] > start: cursor._previous()` is skipped for a
falsy (empty) `start`, so the scan begins at the record the seek landed on
and `fetch_until('')` emits it, although no stored key lies in `['', '']`. -/
theorem C2_counterexample :
    dbSlice [(bytesOf "x", [0])] (some []) (some []) true = some [(bytesOf "x", [0])] ∧
      List.filter (fun kv => decide (([] : Bytes) ≤ kv.1 ∧ kv.1 ≤ ([] : Bytes)))
        [(bytesOf "x", [0])] = [] := by
  decide

/-- C2 (amended): for any sorted store and endpoints `a ≤ b`, the forward
slice with bounds `a` and `b` yields exactly the stored entries whose key
`k` satisfies `a ≤ k ≤ b`, in ascending byte order; and PROVIDED the upper
bound `b` is non-empty (truthy), the reversed slice with bounds `b` and `a`
yields the same set in descending order.  Both bounds are inclusive, and an
endpoint absent from the store simply restricts the filter (forward scans
resume at the least stored key at or above `a`, reverse scans at the
greatest stored key at or below `b`).  At `b = ''` (which under `a ≤ b`
forces `a = ''`) the reverse scan skips the overshoot step-back and can
yield one out-of-range record. -/
theorem C2_slice_inclusivity (db : DB) (hdb : DBSorted db) (a b : Bytes) (hab : a ≤ b) :
    dbSlice db (some a) (some b) false =
        some (db.filter (fun kv => decide (a ≤ kv.1 ∧ kv.1 ≤ b))) ∧
      (b ≠ [] →
        dbSlice db (some b) (some a) true =
          some ((db.filter (fun kv => decide (a ≤ kv.1 ∧ kv.1 ≤ b))).reverse)) ∧
      (db.filter (fun kv => decide (a ≤ kv.1 ∧ kv.1 ≤ b))).Pairwise
        (fun x y => x.1 < y.1) := by
  refine ⟨?_, ?_, List.Pairwise.filter _ hdb⟩
  · have hclean : cleanKeySlice (some a) (some b) false = (some a, some b, false) := by
      simp [cleanKeySlice, optLtb, not_lt_of_le hab]
    simp only [dbSlice, hclean]
    exact getSlice_sorted hdb hab
  · intro hb
    have hclean : cleanKeySlice (some b) (some a) true = (some b, some a, true) := by
      simp [cleanKeySlice, optLtb, not_lt_of_le hab]
    simp only [dbSlice, hclean]
    exact getSliceRev_sorted hdb hab hb

/-- Witness for C2: concrete sorted store, concrete bounds, bounds falling
between stored keys. -/
theorem C2_slice_inclusivity_witness :
    dbSlice [(bytesOf "ka", [0]), (bytesOf "ka1", [1]), (bytesOf "kb", [2]), (bytesOf "kc", [3])]
        (some (bytesOf "ka0")) (some (bytesOf "kb2")) false =
        some [(bytesOf "ka1", [1]), (bytesOf "kb", [2])] ∧
      dbSlice [(bytesOf "ka", [0]), (bytesOf "ka1", [1]), (bytesOf "kb", [2]), (bytesOf "kc", [3])]
        (some (bytesOf "kb2")) (some (bytesOf "ka0")) true =
        some [(bytesOf "kb", [2]), (bytesOf "ka1", [1])] := by
  have h := C2_slice_inclusivity
    [(bytesOf "ka", [0]), (bytesOf "ka1", [1]), (bytesOf "kb", [2]), (bytesOf "kc", [3])]
    (by decide) (bytesOf "ka0") (bytesOf "kb2") (by decide)
  refine ⟨?_, ?_⟩
  · rw [h.1]
    decide
  · rw [h.2.1 (by decide)]
    decide

/-! ### Typed field codecs (query.py `DateTimeField`/`DateField`/`LongField`/
`FloatField` and the base `Field`)

`db_value`/`python_value` take and return `Option`: `none` is Python `None`,
`some bs` a byte string.  `struct.pack('>q'/' >d')` transports fixed 8-byte
big-endian images; an IEEE-754 double is modelled by the 64-bit pattern the
pack transports bit-for-bit, with `floatVal` giving the exact rational value
of a non-negative finite pattern for ordering statements. -/

/-- Big-endian fixed-width digit string of `n` in base `base`, width `w`;
`natBE 256 8` is the byte image `struct.pack('>q'/'>d')` produces. -/
def natBE (base : Nat) : Nat → Nat → List Nat
  | 0, _ => []
  | w + 1, n => natBE base w (n / base) ++ [n % base]

/-- Value of a big-endian digit string (`struct.unpack`). -/
def natBEval (base : Nat) (l : List Nat) : Nat := l.foldl (fun a d => a * base + d) 0

theorem length_natBE (base w n : Nat) : (natBE base w n).length = w := by
  induction w generalizing n with
  | zero => rfl
  | succ w ih => simp [natBE, ih]

theorem natBEval_natBE {base : Nat} (hb : 0 < base) (w n : Nat) :
    natBEval base (natBE base w n) = n % base ^ w := by
  induction w generalizing n with
  | zero => simp [natBE, natBEval, Nat.mod_one]
  | succ w ih =>
    rw [natBE, natBEval, List.foldl_append]
    have h1 : List.foldl (fun a d => a * base + d) 0 (natBE base w (n / base)) =
        (n / base) % base ^ w := ih (n / base)
    rw [h1]
    simp only [List.foldl_cons, List.foldl_nil]
    have : base ^ (w + 1) = base * base ^ w := by ring
    rw [this, Nat.mod_mul]
    ring

theorem mem_natBE_lt {base w n d : Nat} (hb : 0 < base) (h : d ∈ natBE base w n) : d < base := by
  induction w generalizing n with
  | zero => simp [natBE] at h
  | succ w ih =>
    rw [natBE] at h
    rcases List.mem_append.1 h with h | h
    · exact ih h
    · simp only [List.mem_singleton] at h
      subst h
      exact Nat.mod_lt _ hb

theorem natBE_strict_mono {base : Nat} (hb : 0 < base) {w v u : Nat}
    (hvu : v < u) (hu : u < base ^ w) : (natBE base w v : Bytes) < natBE base w u := by
  induction w generalizing v u with
  | zero =>
    simp only [pow_zero, Nat.lt_one_iff] at hu
    omega
  | succ w ih =>
    rw [natBE, natBE]
    have hdiv : v / base ≤ u / base := Nat.div_le_div_right (le_of_lt hvu)
    rcases lt_or_eq_of_le hdiv with hlt | heq
    · have hub : u / base < base ^ w := by
        rw [Nat.div_lt_iff_lt_mul hb]
        calc u < base ^ (w + 1) := hu
        _ = base ^ w * base := by ring
      exact lex_append_of_length_eq (by simp [length_natBE]) (ih hlt hub)
    · rw [heq]
      refine lex_append_left_iff.2 ?_
      refine lex_cons_iff.2 (Or.inl ?_)
      have h1 := Nat.div_add_mod v base
      have h2 := Nat.div_add_mod u base
      have h3 : base * (v / base) = base * (u / base) := by rw [heq]
      omega

theorem natBE_mono {base : Nat} (hb : 0 < base) {w v u : Nat}
    (hvu : v ≤ u) (hu : u < base ^ w) : (natBE base w v : Bytes) ≤ natBE base w u := by
  rcases lt_or_eq_of_le hvu with h | h
  · exact le_of_lt (natBE_strict_mono hb h hu)
  · subst h
    exact le_refl _

/-- `struct.pack('>q', v)`: 8-byte big-endian two's complement. -/
def packInt64 (v : Int) : Bytes := natBE 256 8 ((v % (2 ^ 64)).toNat)

/-- `struct.unpack('>q', b)[0]`. -/
def unpackInt64 (b : Bytes) : Int :=
  let n := natBEval 256 b
  if n < 2 ^ 63 then (n : Int) else (n : Int) - 2 ^ 64

/-- Base `Field` (String) `db_value`: the identity, `None` passing through. -/
def stringDbValue (v : Option Bytes) : Option Bytes := v

/-- Base `Field` (String) `python_value`: the identity. -/
def stringPythonValue (v : Option Bytes) : Option Bytes := v

/-- `LongField.db_value`: `struct.pack('>q', value) if value is not None
else ''`. -/
def longDbValue (v : Option Int) : Option Bytes :=
  match v with
  | some x => some (packInt64 x)
  | none => some []

/-- `LongField.python_value`: `None` on falsy input (`None` or `''`), else
`struct.unpack('>q', value)[0]`. -/
def longPythonValue (b : Option Bytes) : Option Int :=
  match b with
  | none => none
  | some bs => if bs = [] then none else some (unpackInt64 bs)

/-- `FloatField.db_value`: `struct.pack('>d', value) if value is not None
else ''`. -/
def floatDbValue (v : Option Nat) : Option Bytes :=
  match v with
  | some p => some (natBE 256 8 p)
  | none => some []

/-- `FloatField.python_value`: `None` on falsy input, else
`struct.unpack('>d', value)[0]`. -/
def floatPythonValue (b : Option Bytes) : Option Nat :=
  match b with
  | none => none
  | some bs => if bs = [] then none else some (natBEval 256 bs)

/-- A pattern with sign bit 0 and biased exponent below 2047: a non-negative
finite double. -/
def floatFinite (p : Nat) : Prop := p / 2 ^ 52 < 2047

/-- Scaled integer significand of a non-negative finite binary64 pattern:
the denoted value is `floatScaled p / 2 ^ 1074` (subnormals at exponent 0,
normals with the implicit leading bit). -/
def floatScaled (p : Nat) : Nat :=
  if p / 2 ^ 52 = 0 then p % 2 ^ 52 else (2 ^ 52 + p % 2 ^ 52) * 2 ^ (p / 2 ^ 52 - 1)

/-- The exact rational value denoted by a non-negative finite binary64
pattern: the natural ordering of the Python float the pattern encodes. -/
def floatVal (p : Nat) : ℚ := (floatScaled p : ℚ) / 2 ^ 1074

/-- Decimal digit bytes of `n`, zero-padded to width `w` (`'%0wd' % n`, the
zero-padded fields `strftime` emits). -/
def decDigits (w n : Nat) : Bytes := (natBE 10 w n).map (· + 48)

/-- `int()` of a decimal-digit byte string. -/
def parseDec (b : Bytes) : Nat := b.foldl (fun a c => a * 10 + (c - 48)) 0

/-- All bytes are ASCII digits and the string is nonempty: the strings
`int()` accepts among separator-free pieces. -/
def isDigits (b : Bytes) : Bool :=
  !b.isEmpty && b.all (fun c => decide (48 ≤ c ∧ c ≤ 57))

/-- `value.split('-')` on bytes: split at every 45 (`'-'`). -/
def splitOn45 : Bytes → List Bytes
  | [] => [[]]
  | c :: t =>
    if c = 45 then [] :: splitOn45 t
    else
      match splitOn45 t with
      | h :: r => (c :: h) :: r
      | [] => [[c]]

/-- A `datetime.date`: `(year, month, day)`. -/
abbrev DateV := Nat × Nat × Nat

/-- `date.strftime('%Y-%m-%d')`.  Python 2 `strftime` requires
`year >= 1900`, so the year field is always four digits. -/
def dateFormat (d : DateV) : Bytes :=
  decDigits 4 d.1 ++ [45] ++ decDigits 2 d.2.1 ++ [45] ++ decDigits 2 d.2.2

/-- `DateField.db_value`: `value.strftime('%Y-%m-%d') if value` (`None`
falls through, returning `None`). -/
def dateDbValue (v : Option DateV) : Option Bytes :=
  match v with
  | some d => some (dateFormat d)
  | none => none

/-- `DateField.python_value`: `None` on falsy input; else split on `'-'`,
`int()` each piece, and build the date.  A piece `int()` rejects, or a piece
count `datetime.date` rejects, raises — modelled as `none`.
(`datetime.date` range validation is not re-modelled: only `strftime`
output reaches this parser in the round-trip claims.) -/
def datePythonValue (b : Option Bytes) : Option DateV :=
  match b with
  | none => none
  | some bs =>
    if bs = [] then none
    else
      match splitOn45 bs with
      | [ys, ms, ds] =>
        if isDigits ys && isDigits ms && isDigits ds then
          some (parseDec ys, parseDec ms, parseDec ds)
        else none
      | _ => none

/-- A `datetime.datetime` value. -/
structure DateTimeV where
  year : Nat
  month : Nat
  day : Nat
  hour : Nat
  minute : Nat
  second : Nat
  micro : Nat
deriving DecidableEq

/-- `datetime.strftime('%Y-%m-%d %H:%M:%S.%f')`. -/
def dtFormat (v : DateTimeV) : Bytes :=
  decDigits 4 v.year ++ [45] ++ decDigits 2 v.month ++ [45] ++ decDigits 2 v.day ++ [32] ++
    decDigits 2 v.hour ++ [58] ++ decDigits 2 v.minute ++ [58] ++ decDigits 2 v.second ++
    [46] ++ decDigits 6 v.micro

/-- `datetime.strptime(value, '%Y-%m-%d %H:%M:%S.%f')`, modelled on the
fixed-width strings `strftime` emits: parse each zero-padded field at its
offset and accept exactly when the input is the format image of the result
(strptime's leniency on short fields is never exercised by round trips). -/
def dtParse (bs : Bytes) : Option DateTimeV :=
  let c : DateTimeV :=
    ⟨parseDec (bs.take 4), parseDec ((bs.drop 5).take 2), parseDec ((bs.drop 8).take 2),
      parseDec ((bs.drop 11).take 2), parseDec ((bs.drop 14).take 2),
      parseDec ((bs.drop 17).take 2), parseDec (bs.drop 20)⟩
  if bs = dtFormat c then some c else none

/-- `DateTimeField.db_value`: `value.strftime(...) if value` (`None` falls
through, returning `None`). -/
def dateTimeDbValue (v : Option DateTimeV) : Option Bytes :=
  match v with
  | some d => some (dtFormat d)
  | none => none

/-- `DateTimeField.python_value`: `None` on falsy input, else `strptime`. -/
def dateTimePythonValue (b : Option Bytes) : Option DateTimeV :=
  match b with
  | none => none
  | some bs => if bs = [] then none else dtParse bs

/-- `struct.pack('>q')`'s accepted domain: signed 64-bit integers. -/
def longInRange (v : Int) : Prop := -(2 ^ 63) ≤ v ∧ v < 2 ^ 63

/-- Dates Python 2 `strftime('%Y-%m-%d')` accepts (year at least 1900). -/
def dateInRange (d : DateV) : Prop :=
  1900 ≤ d.1 ∧ d.1 ≤ 9999 ∧ 1 ≤ d.2.1 ∧ d.2.1 ≤ 12 ∧ 1 ≤ d.2.2 ∧ d.2.2 ≤ 31

/-- Datetimes Python 2 `strftime` accepts. -/
def dtInRange (v : DateTimeV) : Prop :=
  1900 ≤ v.year ∧ v.year ≤ 9999 ∧ 1 ≤ v.month ∧ v.month ≤ 12 ∧ 1 ≤ v.day ∧ v.day ≤ 31 ∧
    v.hour ≤ 23 ∧ v.minute ≤ 59 ∧ v.second ≤ 59 ∧ v.micro ≤ 999999

/-! ### Codec round trips (C3) -/

theorem unpackInt64_packInt64 {v : Int} (h : longInRange v) :
    unpackInt64 (packInt64 v) = v := by
  obtain ⟨hlo, hhi⟩ := h
  have hmod : (0 : Int) ≤ v % 2 ^ 64 := Int.emod_nonneg v (by norm_num)
  have hmodlt : v % 2 ^ 64 < 2 ^ 64 := Int.emod_lt_of_pos v (by norm_num)
  have htn : ((v % 2 ^ 64).toNat : Int) = v % 2 ^ 64 := Int.toNat_of_nonneg hmod
  have hval : natBEval 256 (natBE 256 8 ((v % 2 ^ 64).toNat)) = (v % 2 ^ 64).toNat := by
    rw [natBEval_natBE (by norm_num)]
    have h8 : (256 : Nat) ^ 8 = 2 ^ 64 := by norm_num
    rw [h8]
    exact Nat.mod_eq_of_lt (by omega)
  rw [packInt64, unpackInt64]
  simp only [hval]
  by_cases hpos : 0 ≤ v
  · have hveq : v % 2 ^ 64 = v := Int.emod_eq_of_lt hpos (by omega)
    rw [if_pos (by omega)]
    omega
  · have hveq : v % 2 ^ 64 = v + 2 ^ 64 := by
      have h1 : (v + 2 ^ 64 * 1) % 2 ^ 64 = v % 2 ^ 64 :=
        Int.add_mul_emod_self_left v (2 ^ 64) 1
      have h2 : (v + 2 ^ 64) % 2 ^ 64 = v + 2 ^ 64 :=
        Int.emod_eq_of_lt (by omega) (by omega)
      omega
    rw [if_neg (by omega)]
    omega

theorem parseDec_map_aux (l : List Nat) (a : Nat) :
    (l.map (· + 48)).foldl (fun a c => a * 10 + (c - 48)) a =
      l.foldl (fun a d => a * 10 + d) a := by
  induction l generalizing a with
  | nil => rfl
  | cons d t ih => simp [List.foldl_cons, ih, Nat.add_sub_cancel]

theorem parseDec_decDigits {w n : Nat} (h : n < 10 ^ w) : parseDec (decDigits w n) = n := by
  rw [parseDec, decDigits, parseDec_map_aux]
  have hv := @natBEval_natBE 10 (by norm_num) w n
  rw [natBEval] at hv
  rw [hv, Nat.mod_eq_of_lt h]

theorem length_decDigits (w n : Nat) : (decDigits w n).length = w := by
  simp [decDigits, length_natBE]

theorem mem_decDigits_ne45 {w n : Nat} : ∀ c ∈ decDigits w n, c ≠ 45 := by
  intro c hc
  rcases List.mem_map.1 hc with ⟨d, _, rfl⟩
  omega

theorem isDigits_decDigits {w n : Nat} (hw : 0 < w) : isDigits (decDigits w n) = true := by
  simp only [isDigits, Bool.and_eq_true, List.all_eq_true]
  constructor
  · have hlen : (decDigits w n).length = w := length_decDigits w n
    cases hd : decDigits w n with
    | nil => rw [hd] at hlen; simp at hlen; omega
    | cons c t => simp [List.isEmpty]
  · intro c hc
    rcases List.mem_map.1 hc with ⟨d, hd, rfl⟩
    have : d < 10 := mem_natBE_lt (by norm_num) hd
    simp only [decide_eq_true_eq]
    omega

theorem splitOn45_no45 {b : Bytes} (h : ∀ c ∈ b, c ≠ 45) : splitOn45 b = [b] := by
  induction b with
  | nil => rfl
  | cons c t ih =>
    have hc : c ≠ 45 := h c (by simp)
    rw [splitOn45, if_neg hc, ih (fun x hx => h x (by simp [hx]))]

theorem splitOn45_append {xs rest : Bytes} (h : ∀ c ∈ xs, c ≠ 45) :
    splitOn45 (xs ++ 45 :: rest) = xs :: splitOn45 rest := by
  induction xs with
  | nil => simp [splitOn45]
  | cons c t ih =>
    have hc : c ≠ 45 := h c (by simp)
    rw [List.cons_append, splitOn45, if_neg hc, ih (fun x hx => h x (by simp [hx]))]

theorem date_roundtrip {d : DateV} (h : dateInRange d) :
    datePythonValue (dateDbValue (some d)) = some d := by
  obtain ⟨y, m, dd⟩ := d
  obtain ⟨h1, h2, h3, h4, h5, h6⟩ := h
  simp only at h1 h2 h3 h4 h5 h6
  rw [dateDbValue, datePythonValue]
  have hne : dateFormat (y, m, dd) ≠ [] := by
    intro hh
    have hl : (dateFormat (y, m, dd)).length = 10 := by
      simp [dateFormat, length_decDigits]
    rw [hh] at hl
    simp at hl
  rw [if_neg hne]
  have hshape : dateFormat (y, m, dd) =
      decDigits 4 y ++ 45 :: (decDigits 2 m ++ 45 :: decDigits 2 dd) := by
    simp [dateFormat]
  rw [hshape, splitOn45_append mem_decDigits_ne45, splitOn45_append mem_decDigits_ne45,
    splitOn45_no45 mem_decDigits_ne45]
  have hdig : (isDigits (decDigits 4 y) && isDigits (decDigits 2 m) &&
      isDigits (decDigits 2 dd)) = true := by
    simp [@isDigits_decDigits 4 y (by norm_num), @isDigits_decDigits 2 m (by norm_num),
      @isDigits_decDigits 2 dd (by norm_num)]
  simp only [hdig, if_true]
  rw [parseDec_decDigits (by omega), parseDec_decDigits (by omega),
    parseDec_decDigits (by omega)]

theorem take_of_append {l1 l2 : Bytes} {n : Nat} (h : l1.length = n) :
    (l1 ++ l2).take n = l1 := List.take_left' h

theorem drop_succ_of_append {l1 l2 : Bytes} {n : Nat} (h : l1.length = n) (c : Nat) :
    (l1 ++ c :: l2).drop (n + 1) = l2 := by
  have hsp : l1 ++ c :: l2 = (l1 ++ [c]) ++ l2 := by simp
  rw [hsp, List.drop_left' (by simp [h])]

theorem dtFormat_shape (v : DateTimeV) : dtFormat v =
    decDigits 4 v.year ++ 45 :: (decDigits 2 v.month ++ 45 :: (decDigits 2 v.day ++
      32 :: (decDigits 2 v.hour ++ 58 :: (decDigits 2 v.minute ++
      58 :: (decDigits 2 v.second ++ 46 :: decDigits 6 v.micro))))) := by
  simp [dtFormat]

theorem dt_roundtrip {v : DateTimeV} (h : dtInRange v) :
    dateTimePythonValue (dateTimeDbValue (some v)) = some v := by
  obtain ⟨hy1, hy2, hm1, hm2, hd1, hd2, hh, hmi, hs, hus⟩ := h
  rw [dateTimeDbValue, dateTimePythonValue]
  have hne : dtFormat v ≠ [] := by
    intro hh2
    have hl : (dtFormat v).length = 26 := by
      simp [dtFormat, length_decDigits]
    rw [hh2] at hl
    simp at hl
  rw [if_neg hne]
  have e1 : (dtFormat v).take 4 = decDigits 4 v.year := by
    rw [dtFormat_shape]
    exact take_of_append (length_decDigits 4 _)
  have e2 : (dtFormat v).drop 5 = decDigits 2 v.month ++ 45 :: (decDigits 2 v.day ++
      32 :: (decDigits 2 v.hour ++ 58 :: (decDigits 2 v.minute ++
      58 :: (decDigits 2 v.second ++ 46 :: decDigits 6 v.micro)))) := by
    rw [dtFormat_shape]
    exact drop_succ_of_append (length_decDigits 4 _) 45
  have e3 : (dtFormat v).drop 8 = decDigits 2 v.day ++
      32 :: (decDigits 2 v.hour ++ 58 :: (decDigits 2 v.minute ++
      58 :: (decDigits 2 v.second ++ 46 :: decDigits 6 v.micro))) := by
    have hcomp : (dtFormat v).drop 8 = ((dtFormat v).drop 5).drop 3 := by
      rw [List.drop_drop]
    rw [hcomp, e2]
    exact drop_succ_of_append (length_decDigits 2 _) 45
  have e4 : (dtFormat v).drop 11 = decDigits 2 v.hour ++ 58 :: (decDigits 2 v.minute ++
      58 :: (decDigits 2 v.second ++ 46 :: decDigits 6 v.micro)) := by
    have hcomp : (dtFormat v).drop 11 = ((dtFormat v).drop 8).drop 3 := by
      rw [List.drop_drop]
    rw [hcomp, e3]
    exact drop_succ_of_append (length_decDigits 2 _) 32
  have e5 : (dtFormat v).drop 14 = decDigits 2 v.minute ++
      58 :: (decDigits 2 v.second ++ 46 :: decDigits 6 v.micro) := by
    have hcomp : (dtFormat v).drop 14 = ((dtFormat v).drop 11).drop 3 := by
      rw [List.drop_drop]
    rw [hcomp, e4]
    exact drop_succ_of_append (length_decDigits 2 _) 58
  have e6 : (dtFormat v).drop 17 = decDigits 2 v.second ++ 46 :: decDigits 6 v.micro := by
    have hcomp : (dtFormat v).drop 17 = ((dtFormat v).drop 14).drop 3 := by
      rw [List.drop_drop]
    rw [hcomp, e5]
    exact drop_succ_of_append (length_decDigits 2 _) 58
  have e7 : (dtFormat v).drop 20 = decDigits 6 v.micro := by
    have hcomp : (dtFormat v).drop 20 = ((dtFormat v).drop 17).drop 3 := by
      rw [List.drop_drop]
    rw [hcomp, e6]
    exact drop_succ_of_append (length_decDigits 2 _) 46
  rw [dtParse]
  simp only [e1, e2, e3, e4, e5, e6, e7, take_of_append (length_decDigits 2 _)]
  rw [parseDec_decDigits (by omega), parseDec_decDigits (by omega),
    parseDec_decDigits (by omega), parseDec_decDigits (by omega),
    parseDec_decDigits (by omega), parseDec_decDigits (by omega),
    parseDec_decDigits (by omega)]
  simp

theorem long_roundtrip {v : Int} (h : longInRange v) :
    longPythonValue (longDbValue (some v)) = some v := by
  rw [longDbValue, longPythonValue]
  have hne : packInt64 v ≠ [] := by
    intro hh
    have hl : (packInt64 v).length = 8 := length_natBE 256 8 _
    rw [hh] at hl
    simp at hl
  rw [if_neg hne, unpackInt64_packInt64 h]

theorem float_roundtrip {p : Nat} (h : p < 2 ^ 64) :
    floatPythonValue (floatDbValue (some p)) = some p := by
  rw [floatDbValue, floatPythonValue]
  have hne : natBE 256 8 p ≠ [] := by
    intro hh
    have hl : (natBE 256 8 p).length = 8 := length_natBE 256 8 _
    rw [hh] at hl
    simp at hl
  rw [if_neg hne, natBEval_natBE (by norm_num)]
  have h8 : (256 : Nat) ^ 8 = 2 ^ 64 := by norm_num
  rw [h8, Nat.mod_eq_of_lt h]

/-- C3 counterexample: `DateField.db_value(None)` returns `None` (the `if
value:` guard falls through), not the empty byte string; the same holds for
the base string `Field` and `DateTimeField`. -/
theorem C3_counterexample : dateDbValue none = none ∧ (none : Option Bytes) ≠ some [] :=
  ⟨rfl, by simp⟩

/-- C3 (amended): every field codec round-trips on its in-range values
(doubles at the level of the 64-bit pattern `struct.pack` transports), and
`db_value` applied to null yields the empty byte string for the Long and
Float fields, while the String, Date and DateTime fields return the null
marker unchanged — call sites coerce it to `''` via `value or ''`. -/
theorem C3_codec_roundtrip :
    (∀ b : Option Bytes, stringPythonValue (stringDbValue b) = b) ∧
      (∀ v : Int, longInRange v → longPythonValue (longDbValue (some v)) = some v) ∧
      (∀ p : Nat, p < 2 ^ 64 → floatPythonValue (floatDbValue (some p)) = some p) ∧
      (∀ d : DateV, dateInRange d → datePythonValue (dateDbValue (some d)) = some d) ∧
      (∀ v : DateTimeV, dtInRange v → dateTimePythonValue (dateTimeDbValue (some v)) = some v) ∧
      longDbValue none = some [] ∧ floatDbValue none = some [] ∧
      stringDbValue none = none ∧ dateDbValue none = none ∧ dateTimeDbValue none = none :=
  ⟨fun _ => rfl, fun _ h => long_roundtrip h, fun _ h => float_roundtrip h,
    fun _ h => date_roundtrip h, fun _ h => dt_roundtrip h, rfl, rfl, rfl, rfl, rfl⟩

/-- Witness for C3 (amended) at concrete in-range values of each type. -/
theorem C3_codec_roundtrip_witness :
    longPythonValue (longDbValue (some (-5))) = some (-5) ∧
      floatPythonValue (floatDbValue (some 4613303445314885481)) =
        some 4613303445314885481 ∧
      datePythonValue (dateDbValue (some (2015, 1, 2))) = some (2015, 1, 2) ∧
      dateTimePythonValue (dateTimeDbValue (some ⟨2015, 1, 2, 3, 4, 5, 6⟩)) =
        some ⟨2015, 1, 2, 3, 4, 5, 6⟩ :=
  ⟨C3_codec_roundtrip.2.1 (-5) (by constructor <;> decide),
    C3_codec_roundtrip.2.2.1 4613303445314885481 (by norm_num),
    C3_codec_roundtrip.2.2.2.1 (2015, 1, 2) (by
      refine ⟨?_, ?_, ?_, ?_, ?_, ?_⟩ <;> norm_num),
    C3_codec_roundtrip.2.2.2.2.1 ⟨2015, 1, 2, 3, 4, 5, 6⟩ (by
      refine ⟨?_, ?_, ?_, ?_, ?_, ?_, ?_, ?_, ?_, ?_⟩ <;> norm_num)⟩

/-! ### Order-preserving encodings (C9) -/

theorem lex_map_add {l1 l2 : List Nat} (c : Nat) (h : (l1 : Bytes) < l2) :
    ((l1.map (· + c)) : Bytes) < l2.map (· + c) := by
  rw [bytes_lt_iff] at h ⊢
  induction h with
  | nil => exact List.Lex.nil
  | cons h ih => exact List.Lex.cons ih
  | rel h => exact List.Lex.rel (by simpa using Nat.add_lt_add_right h c)

theorem decDigits_strict_mono {w v u : Nat} (hvu : v < u) (hu : u < 10 ^ w) :
    (decDigits w v : Bytes) < decDigits w u :=
  lex_map_add 48 (natBE_strict_mono (by norm_num) hvu hu)

theorem packInt64_mono_nonneg {a b : Int} (ha : 0 ≤ a) (hab : a ≤ b) (hb : b < 2 ^ 63) :
    (packInt64 a : Bytes) ≤ packInt64 b := by
  rw [packInt64, packInt64]
  have hae : a % 2 ^ 64 = a := Int.emod_eq_of_lt ha (by omega)
  have hbe : b % 2 ^ 64 = b := Int.emod_eq_of_lt (le_trans ha hab) (by omega)
  rw [hae, hbe]
  refine natBE_mono (by norm_num) (by omega) ?_
  have h8 : (256 : Nat) ^ 8 = 2 ^ 64 := by norm_num
  have h64 : (2 : Nat) ^ 64 = 18446744073709551616 := by norm_num
  omega

theorem floatScaled_strict_mono {p q : Nat} (hq : floatFinite q) (hpq : p < q) :
    floatScaled p < floatScaled q := by
  have hple : p / 2 ^ 52 ≤ q / 2 ^ 52 := Nat.div_le_div_right (le_of_lt hpq)
  have hmp : p % 2 ^ 52 < 2 ^ 52 := Nat.mod_lt _ (by norm_num)
  have hmq : q % 2 ^ 52 < 2 ^ 52 := Nat.mod_lt _ (by norm_num)
  by_cases heq : p / 2 ^ 52 = q / 2 ^ 52
  · have hmod : p % 2 ^ 52 < q % 2 ^ 52 := by
      have h1 := Nat.div_add_mod p (2 ^ 52)
      have h2 := Nat.div_add_mod q (2 ^ 52)
      have h3 : 2 ^ 52 * (p / 2 ^ 52) = 2 ^ 52 * (q / 2 ^ 52) := by rw [heq]
      omega
    rw [floatScaled, floatScaled, heq]
    by_cases hz : q / 2 ^ 52 = 0
    · rw [if_pos hz, if_pos hz]
      exact hmod
    · rw [if_neg hz, if_neg hz]
      exact mul_lt_mul_of_pos_right (by omega) (pow_pos (by norm_num) _)
  · have hlt : p / 2 ^ 52 < q / 2 ^ 52 := lt_of_le_of_ne hple heq
    have hpb : floatScaled p < 2 ^ (52 + p / 2 ^ 52) := by
      rw [floatScaled]
      by_cases hz : p / 2 ^ 52 = 0
      · rw [if_pos hz, hz]
        simpa using hmp
      · rw [if_neg hz]
        calc (2 ^ 52 + p % 2 ^ 52) * 2 ^ (p / 2 ^ 52 - 1)
            < 2 ^ 53 * 2 ^ (p / 2 ^ 52 - 1) :=
              mul_lt_mul_of_pos_right (by omega) (pow_pos (by norm_num) _)
          _ = 2 ^ (53 + (p / 2 ^ 52 - 1)) := by rw [← pow_add]
          _ ≤ 2 ^ (52 + p / 2 ^ 52) := Nat.pow_le_pow_right (by norm_num) (by omega)
    have hqb : 2 ^ (52 + p / 2 ^ 52) ≤ floatScaled q := by
      rw [floatScaled]
      have hz : ¬ (q / 2 ^ 52 = 0) := by omega
      rw [if_neg hz]
      calc (2 : Nat) ^ (52 + p / 2 ^ 52) ≤ 2 ^ (52 + (q / 2 ^ 52 - 1)) :=
            Nat.pow_le_pow_right (by norm_num) (by omega)
        _ = 2 ^ 52 * 2 ^ (q / 2 ^ 52 - 1) := by rw [pow_add]
        _ ≤ (2 ^ 52 + q % 2 ^ 52) * 2 ^ (q / 2 ^ 52 - 1) :=
            Nat.mul_le_mul_right _ (by omega)
    omega

theorem floatVal_le_pattern_le {p q : Nat} (hp : floatFinite p) (hq : floatFinite q)
    (h : floatVal p ≤ floatVal q) : p ≤ q := by
  by_contra hlt
  push_neg at hlt
  have hs := floatScaled_strict_mono hp hlt
  have hlt2 : floatVal q < floatVal p := by
    rw [floatVal, floatVal]
    refine div_lt_div_of_pos_right ?_ (by positivity)
    exact_mod_cast hs
  exact absurd h (not_le_of_lt hlt2)

theorem floatFinite_lt {p : Nat} (hp : floatFinite p) : p < 2 ^ 64 := by
  have hp2 : p / 2 ^ 52 < 2047 := hp
  have h1 := Nat.div_add_mod p (2 ^ 52)
  have h2 : p % 2 ^ 52 < 2 ^ 52 := Nat.mod_lt _ (by norm_num)
  omega

/-- Lexicographic (calendar) order on dates. -/
def dateLt (a b : DateV) : Prop :=
  a.1 < b.1 ∨ (a.1 = b.1 ∧ (a.2.1 < b.2.1 ∨ (a.2.1 = b.2.1 ∧ a.2.2 < b.2.2)))

def dateLe (a b : DateV) : Prop := a = b ∨ dateLt a b

/-- Lexicographic (chronological) order on datetimes. -/
def dtLt (a b : DateTimeV) : Prop :=
  a.year < b.year ∨ (a.year = b.year ∧ (a.month < b.month ∨ (a.month = b.month ∧
    (a.day < b.day ∨ (a.day = b.day ∧ (a.hour < b.hour ∨ (a.hour = b.hour ∧
    (a.minute < b.minute ∨ (a.minute = b.minute ∧ (a.second < b.second ∨
    (a.second = b.second ∧ a.micro < b.micro)))))))))))

def dtLe (a b : DateTimeV) : Prop := a = b ∨ dtLt a b

theorem lex_peel {P X Y : Bytes} (c : Nat) (h : (X : Bytes) < Y) :
    (P ++ c :: X : Bytes) < P ++ c :: Y :=
  lex_append_left_iff.2 (lex_cons_iff.2 (Or.inr ⟨rfl, h⟩))

theorem dateFormat_shape (d : DateV) : dateFormat d =
    decDigits 4 d.1 ++ 45 :: (decDigits 2 d.2.1 ++ 45 :: decDigits 2 d.2.2) := by
  simp [dateFormat]

theorem dateFormat_strict_mono {a b : DateV} (hb : dateInRange b) (hab : dateLt a b) :
    (dateFormat a : Bytes) < dateFormat b := by
  obtain ⟨y1, m1, d1⟩ := a
  obtain ⟨y2, m2, d2⟩ := b
  obtain ⟨hr1, hr2, hr3, hr4, hr5, hr6⟩ := hb
  simp only at hr1 hr2 hr3 hr4 hr5 hr6
  rw [dateFormat_shape, dateFormat_shape]
  simp only
  rcases hab with hy | ⟨hy, hm | ⟨hm, hd⟩⟩
  · exact lex_append_of_length_eq (by simp [length_decDigits])
      (decDigits_strict_mono hy (by omega))
  · simp only at hy hm
    subst hy
    exact lex_peel 45 (lex_append_of_length_eq (by simp [length_decDigits])
      (decDigits_strict_mono hm (by omega)))
  · simp only at hy hm hd
    subst hy
    subst hm
    exact lex_peel 45 (lex_peel 45 (decDigits_strict_mono hd (by omega)))

theorem dtFormat_strict_mono {a b : DateTimeV} (hb : dtInRange b) (hab : dtLt a b) :
    (dtFormat a : Bytes) < dtFormat b := by
  obtain ⟨hr1, hr2, hr3, hr4, hr5, hr6, hr7, hr8, hr9, hr10⟩ := hb
  rw [dtFormat_shape, dtFormat_shape]
  rcases hab with h | ⟨e1, h | ⟨e2, h | ⟨e3, h | ⟨e4, h | ⟨e5, h | ⟨e6, h⟩⟩⟩⟩⟩⟩
  · exact lex_append_of_length_eq (by simp [length_decDigits])
      (decDigits_strict_mono h (by omega))
  · rw [e1]
    exact lex_peel 45 (lex_append_of_length_eq (by simp [length_decDigits])
      (decDigits_strict_mono h (by omega)))
  · rw [e1, e2]
    exact lex_peel 45 (lex_peel 45 (lex_append_of_length_eq (by simp [length_decDigits])
      (decDigits_strict_mono h (by omega))))
  · rw [e1, e2, e3]
    exact lex_peel 45 (lex_peel 45 (lex_peel 32 (lex_append_of_length_eq
      (by simp [length_decDigits]) (decDigits_strict_mono h (by omega)))))
  · rw [e1, e2, e3, e4]
    exact lex_peel 45 (lex_peel 45 (lex_peel 32 (lex_peel 58 (lex_append_of_length_eq
      (by simp [length_decDigits]) (decDigits_strict_mono h (by omega))))))
  · rw [e1, e2, e3, e4, e5]
    exact lex_peel 45 (lex_peel 45 (lex_peel 32 (lex_peel 58 (lex_peel 58
      (lex_append_of_length_eq (by simp [length_decDigits])
        (decDigits_strict_mono h (by omega)))))))
  · rw [e1, e2, e3, e4, e5, e6]
    exact lex_peel 45 (lex_peel 45 (lex_peel 32 (lex_peel 58 (lex_peel 58 (lex_peel 46
      (decDigits_strict_mono h (by omega)))))))

/-- C9: every field codec is lexicographically monotone on non-negative
in-domain values: for `a ≤ b` under the type's natural ordering (byte order
for strings, integer order for longs, the denoted rational value for
non-negative finite doubles, calendar order for dates and datetimes), the
encoded byte strings `db_value` produces satisfy `enc a ≤ enc b` in
unsigned lexicographic byte order. -/
theorem C9_order_preserving_encodings :
    (∀ a b : Bytes, a ≤ b →
        ∃ ea eb, stringDbValue (some a) = some ea ∧ stringDbValue (some b) = some eb ∧
          ea ≤ eb) ∧
      (∀ a b : Int, 0 ≤ a → a ≤ b → b < 2 ^ 63 →
        ∃ ea eb, longDbValue (some a) = some ea ∧ longDbValue (some b) = some eb ∧
          ea ≤ eb) ∧
      (∀ p q : Nat, floatFinite p → floatFinite q → floatVal p ≤ floatVal q →
        ∃ ea eb, floatDbValue (some p) = some ea ∧ floatDbValue (some q) = some eb ∧
          ea ≤ eb) ∧
      (∀ a b : DateV, dateInRange a → dateInRange b → dateLe a b →
        ∃ ea eb, dateDbValue (some a) = some ea ∧ dateDbValue (some b) = some eb ∧
          ea ≤ eb) ∧
      (∀ a b : DateTimeV, dtInRange a → dtInRange b → dtLe a b →
        ∃ ea eb, dateTimeDbValue (some a) = some ea ∧ dateTimeDbValue (some b) = some eb ∧
          ea ≤ eb) := by
  refine ⟨?_, ?_, ?_, ?_, ?_⟩
  · intro a b hab
    exact ⟨a, b, rfl, rfl, hab⟩
  · intro a b ha hab hb
    exact ⟨packInt64 a, packInt64 b, rfl, rfl, packInt64_mono_nonneg ha hab hb⟩
  · intro p q hp hq hval
    refine ⟨natBE 256 8 p, natBE 256 8 q, rfl, rfl, ?_⟩
    have hpq : p ≤ q := floatVal_le_pattern_le hp hq hval
    have h8 : q < 256 ^ 8 := by
      have hq64 := floatFinite_lt hq
      have h64 : (256 : Nat) ^ 8 = 2 ^ 64 := by norm_num
      rw [h64]
      exact hq64
    exact natBE_mono (by norm_num) hpq h8
  · intro a b ha hb hab
    refine ⟨dateFormat a, dateFormat b, rfl, rfl, ?_⟩
    rcases hab with rfl | hlt
    · exact le_refl _
    · exact le_of_lt (dateFormat_strict_mono hb hlt)
  · intro a b ha hb hab
    refine ⟨dtFormat a, dtFormat b, rfl, rfl, ?_⟩
    rcases hab with rfl | hlt
    · exact le_refl _
    · exact le_of_lt (dtFormat_strict_mono hb hlt)

/-- Witness for C9 at concrete in-range values of every type. -/
theorem C9_order_preserving_encodings_witness :
    (∃ ea eb, stringDbValue (some (bytesOf "ab")) = some ea ∧
        stringDbValue (some (bytesOf "b")) = some eb ∧ ea ≤ eb) ∧
      (∃ ea eb, longDbValue (some 3) = some ea ∧ longDbValue (some 700) = some eb ∧
        ea ≤ eb) ∧
      (∃ ea eb, floatDbValue (some 1) = some ea ∧ floatDbValue (some 2) = some eb ∧
        ea ≤ eb) ∧
      (∃ ea eb, dateDbValue (some (2015, 12, 31)) = some ea ∧
        dateDbValue (some (2016, 1, 2)) = some eb ∧ ea ≤ eb) ∧
      (∃ ea eb, dateTimeDbValue (some ⟨2015, 1, 2, 3, 4, 5, 6⟩) = some ea ∧
        dateTimeDbValue (some ⟨2015, 1, 2, 3, 4, 5, 7⟩) = some eb ∧ ea ≤ eb) := by
  refine ⟨?_, ?_, ?_, ?_, ?_⟩
  · exact C9_order_preserving_encodings.1 (bytesOf "ab") (bytesOf "b") (by decide)
  · exact C9_order_preserving_encodings.2.1 3 700 (by norm_num) (by norm_num) (by norm_num)
  · refine C9_order_preserving_encodings.2.2.1 1 2 ?_ ?_ ?_
    · show (1 : Nat) / 2 ^ 52 < 2047
      norm_num
    · show (2 : Nat) / 2 ^ 52 < 2047
      norm_num
    · rw [floatVal, floatVal]
      have h1 : floatScaled 1 = 1 := by norm_num [floatScaled]
      have h2 : floatScaled 2 = 2 := by norm_num [floatScaled]
      rw [h1, h2]
      exact (div_le_div_right (by positivity)).2 (by norm_num)
  · refine C9_order_preserving_encodings.2.2.2.1 (2015, 12, 31) (2016, 1, 2) ?_ ?_ ?_
    · exact ⟨by norm_num, by norm_num, by norm_num, by norm_num, by norm_num, by norm_num⟩
    · exact ⟨by norm_num, by norm_num, by norm_num, by norm_num, by norm_num, by norm_num⟩
    · exact Or.inr (Or.inl (by norm_num))
  · refine C9_order_preserving_encodings.2.2.2.2 ⟨2015, 1, 2, 3, 4, 5, 6⟩
      ⟨2015, 1, 2, 3, 4, 5, 7⟩ ?_ ?_ ?_
    · refine ⟨?_, ?_, ?_, ?_, ?_, ?_, ?_, ?_, ?_, ?_⟩ <;> norm_num
    · refine ⟨?_, ?_, ?_, ?_, ?_, ?_, ?_, ?_, ?_, ?_⟩ <;> norm_num
    · right
      simp [dtLt]

/-! ### Secondary index (query.py `Index`)

An index lives under the reserved prefix `idx:<model>:<field>` (`name`).
Entry keys are `name \xFF <encoded value> \xFF <encoded pk>`, the pk packed
by `LongField.db_value` (8-byte big-endian); the stored value is the decimal
text `str(primary_key)`.  Queries take the already-encoded field value
(`self.field.db_value(value)`). -/

/-- `Index.get_key`: `'%s\xff%s\xff%s' % (name, db_value(value) or '',
convert_pk(primary_key))`. -/
def idxGetKey (name encVal encPk : Bytes) : Bytes := name ++ 255 :: (encVal ++ 255 :: encPk)

/-- `Index.stop_key`: `'%s\xff\xff\xff' % name`, the sentinel bounding
range scans. -/
def idxStopKey (name : Bytes) : Bytes := name ++ [255, 255, 255]

/-- `Index.get_prefix()` with no value: `'%s\xff' % name`. -/
def idxPrefix (name : Bytes) : Bytes := name ++ [255]

/-- `Index.get_prefix(value, closed)`: `'%s\xff%s%s'` with a trailing `\xff`
when closed. -/
def idxPrefixVal (name encVal : Bytes) (closed : Bool) : Bytes :=
  name ++ 255 :: (encVal ++ if closed then [255] else [])

/-- `str(primary_key)`: decimal text of the primary key, the value stored
under every index entry key. -/
def decimalOf (n : Nat) : Bytes := (Nat.toDigits 10 n).map Char.toNat

/-- The relational operations `Index.query` dispatches on. -/
inductive Op where
  | eq
  | ne
  | lt
  | le
  | gt
  | ge
  | startswith
deriving DecidableEq

/-- `Index.query`, entry-level: the `(key, value)` pairs each branch's range
scan and post-filter retain, in scan order.  `Index.query` itself returns
their values (`[value for key, value in results]`, plus the branch's
enumerate/trim post-processing); `idxQuery` below projects them. -/
def idxQueryEntries (db : DB) (name encVal : Bytes) : Op → Option (List (Bytes × Bytes))
  | .eq =>
    dbSlice db (some (idxPrefixVal name encVal true))
      (some (idxPrefixVal name encVal true ++ [255])) false
  | .lt =>
    dbSlice db (some (idxPrefix name))
      (some (idxPrefixVal name encVal false ++ [255])) false
  | .le =>
    dbSlice db (some (idxPrefix name))
      (some (idxPrefixVal name encVal false ++ [255] ++ [255])) false
  | .gt =>
    (dbSlice db (some (idxStopKey name))
      (some (idxPrefixVal name encVal false ++ [255, 255])) false).map (fun rs => rs.drop 1)
  | .ge =>
    (dbSlice db (some (idxStopKey name))
      (some (idxPrefixVal name encVal false)) false).map (fun rs => rs.drop 1)
  | .ne =>
    (dbSlice db (some (idxPrefix name)) (some (idxStopKey name)) false).map
      (fun rs =>
        (rs.filter (fun kv => ! (idxPrefixVal name encVal true).isPrefixOf kv.1)).dropLast)
  | .startswith =>
    dbSlice db (some (idxPrefixVal name encVal false))
      (some (idxPrefixVal name encVal false ++ [255, 255])) false

/-- `Index.query`: the primary-key strings of the retained entries. -/
def idxQuery (db : DB) (name encVal : Bytes) (op : Op) : Option (List Bytes) :=
  (idxQueryEntries db name encVal op).map (List.map Prod.snd)

/-- `Index.store`: put the entry key with `str(primary_key)` as value. -/
def idxStore (db : DB) (name encVal : Bytes) (pk : Int) : DB :=
  dbPut db (idxGetKey name encVal (packInt64 pk)) (decimalOf pk.toNat)

/-- `Index.store_endpoint`: put the sentinel with an empty value. -/
def idxStoreEndpoint (db : DB) (name : Bytes) : DB := dbPut db (idxStopKey name) []

/-- `Index.delete`: remove the entry key. -/
def idxDelete (db : DB) (name encVal : Bytes) (pk : Int) : DB :=
  dbDel db (idxGetKey name encVal (packInt64 pk))

/-- The spec's authoritative `!=` semantics (§4.7, §9 of the spec): the
values of all index entries in the full index range `[name\xFF, sentinel]`
whose key does not begin with `name \xFF enc \xFF`, the sentinel itself
excluded. -/
def neQuerySpec (db : DB) (name encVal : Bytes) : List Bytes :=
  (db.filter (fun kv =>
      decide (idxPrefix name ≤ kv.1) && decide (kv.1 ≤ idxStopKey name) &&
        ! (idxPrefixVal name encVal true).isPrefixOf kv.1 &&
        ! decide (kv.1 = idxStopKey name))).map Prod.snd

/-- Concrete index state for the `!=` divergence: a string index over
`idx:m:f` holding value `"a"` at pk 1, value `"b"` at pk 2, plus the
sentinel. -/
def neTestDb : DB :=
  [(idxGetKey (bytesOf "idx:m:f") (bytesOf "a") (packInt64 1), bytesOf "1"),
   (idxGetKey (bytesOf "idx:m:f") (bytesOf "b") (packInt64 2), bytesOf "2"),
   (idxStopKey (bytesOf "idx:m:f"), [])]

/-- C7: evaluating `Index.query` at the failing input.  Querying `!=` with
the empty encoded value (a string field value `''`): the prefix filter
`name\xFF\xFF` removes the sentinel itself, and the `[:-1]` trim then
discards the last real entry, so the code returns only pk `"1"` while the
spec's authoritative definition returns `["1", "2"]`. -/
theorem C7_ne_trim_bug :
    idxQuery neTestDb (bytesOf "idx:m:f") [] Op.ne = some [bytesOf "1"] ∧
      neQuerySpec neTestDb (bytesOf "idx:m:f") [] = [bytesOf "1", bytesOf "2"] := by
  decide

/-! ### Index query result order (C8) -/

/-- Concrete Long index: values 1, 2, 3 at pks 1, 2, 3, plus the sentinel. -/
def c8LongDb : DB :=
  [(idxGetKey (bytesOf "idx:n:x") (packInt64 1) (packInt64 1), bytesOf "1"),
   (idxGetKey (bytesOf "idx:n:x") (packInt64 2) (packInt64 2), bytesOf "2"),
   (idxGetKey (bytesOf "idx:n:x") (packInt64 3) (packInt64 3), bytesOf "3"),
   (idxStopKey (bytesOf "idx:n:x"), [])]

/-- Concrete string index: values `"ab"` at pk 2 and `"a"` at pk 1 (in that
key order: `\xFF` sorts the shorter encoding after the longer), plus the
sentinel. -/
def c8StrDb : DB :=
  [(idxGetKey (bytesOf "idx:m:f") (bytesOf "ab") (packInt64 2), bytesOf "2"),
   (idxGetKey (bytesOf "idx:m:f") (bytesOf "a") (packInt64 1), bytesOf "1"),
   (idxStopKey (bytesOf "idx:m:f"), [])]

set_option maxRecDepth 4000 in
/-- C8 counterexample: `query(1, '>')` scans in reverse, returning entries
for values 3 then 2 — descending encoded order (the second key is lexically
below the first) — and on a string index `query('b', '<=')` returns the
entry encoding `"ab"` before the one encoding `"a"` although `"a" < "ab"`,
because the `\xFF` separator sorts a proper-prefix encoding after its
extension.  Both contradict "ascending encoded value then pk" as stated. -/
theorem C8_counterexample :
    idxQueryEntries c8LongDb (bytesOf "idx:n:x") (packInt64 1) Op.gt =
        some [(idxGetKey (bytesOf "idx:n:x") (packInt64 3) (packInt64 3), bytesOf "3"),
          (idxGetKey (bytesOf "idx:n:x") (packInt64 2) (packInt64 2), bytesOf "2")] ∧
      (idxGetKey (bytesOf "idx:n:x") (packInt64 2) (packInt64 2) : Bytes) <
        idxGetKey (bytesOf "idx:n:x") (packInt64 3) (packInt64 3) ∧
      idxQueryEntries c8StrDb (bytesOf "idx:m:f") (bytesOf "b") Op.le =
        some [(idxGetKey (bytesOf "idx:m:f") (bytesOf "ab") (packInt64 2), bytesOf "2"),
          (idxGetKey (bytesOf "idx:m:f") (bytesOf "a") (packInt64 1), bytesOf "1")] ∧
      (bytesOf "a" : Bytes) < bytesOf "ab" := by
  decide

theorem fetchUntilFwd_sublist (l : List (Bytes × Bytes)) (e : Option Bytes) :
    (fetchUntilFwd l e).Sublist l := by
  induction l with
  | nil => simp [fetchUntilFwd]
  | cons hd t ih =>
    obtain ⟨k, v⟩ := hd
    cases e with
    | none => simp [fetchUntilFwd]
    | some e' =>
      rw [fetchUntilFwd]
      by_cases h1 : e' ≤ k
      · rw [if_pos h1]
        by_cases h2 : k = e'
        · rw [if_pos h2]
          exact (List.nil_sublist t).cons₂ _
        · rw [if_neg h2]
          exact List.nil_sublist _
      · rw [if_neg h1]
        exact ih.cons₂ _

theorem fetchUntilRev_sublist (l : List (Bytes × Bytes)) (e : Option Bytes) :
    (fetchUntilRev l e).Sublist l := by
  induction l with
  | nil => simp [fetchUntilRev]
  | cons hd t ih =>
    obtain ⟨k, v⟩ := hd
    cases e with
    | none => exact ih.cons₂ _
    | some e' =>
      rw [fetchUntilRev]
      by_cases h1 : k ≤ e'
      · rw [if_pos h1]
        by_cases h2 : k = e'
        · rw [if_pos h2]
          exact (List.nil_sublist t).cons₂ _
        · rw [if_neg h2]
          exact List.nil_sublist _
      · rw [if_neg h1]
        exact ih.cons₂ _

theorem getSlice_sublist {db : DB} {os oe : Option Bytes} {l : List (Bytes × Bytes)}
    (h : getSlice db os oe = some l) : l.Sublist db := by
  cases os with
  | none =>
    rw [getSlice] at h
    obtain rfl : fetchUntilFwd db oe = l := by simpa using h
    exact fetchUntilFwd_sublist db oe
  | some s =>
    rw [getSlice] at h
    by_cases hg : s ≠ [] ∧ pyGtOpt s oe
    · rw [if_pos hg] at h
      simp at h
    · rw [if_neg hg] at h
      obtain rfl : fetchUntilFwd (db.dropWhile (fun kv => decide (kv.1 < s))) oe = l := by
        simpa using h
      exact (fetchUntilFwd_sublist _ oe).trans (List.dropWhile_sublist _)

theorem revCandidates_sublist (db : DB) (s : Bytes) : (revCandidates db s).Sublist db := by
  cases hseek : seekIdx (fun kv => decide (s ≤ kv.1)) db with
  | none =>
    rw [revCandidates_eq_of_seek_fail hseek]
  | some j =>
    rcases seekIdx_drop hseek with ⟨x, rest, hdrop, -⟩
    rw [revCandidates_eq_of_seek hseek hdrop]
    by_cases hx : s ≠ [] ∧ s < x.1
    · rw [if_pos hx]
      exact List.take_sublist _ _
    · rw [if_neg hx]
      exact List.take_sublist _ _

theorem getSliceRev_sublist {db : DB} {os oe : Option Bytes} {l : List (Bytes × Bytes)}
    (h : getSliceRev db os oe = some l) : l.Sublist db.reverse := by
  cases os with
  | none =>
    rw [getSliceRev] at h
    obtain rfl : fetchUntilRev db.reverse oe = l := by simpa using h
    exact fetchUntilRev_sublist _ oe
  | some s =>
    rw [getSliceRev] at h
    by_cases hg : s ≠ [] ∧ pyLtOpt s oe
    · rw [if_pos hg] at h
      simp at h
    · rw [if_neg hg] at h
      obtain rfl : fetchUntilRev (revCandidates db s).reverse oe = l := by simpa using h
      exact (fetchUntilRev_sublist _ oe).trans ((revCandidates_sublist db s).reverse)

theorem dbSlice_eq_getSlice (db : DB) {s e : Bytes} (h : ¬ e < s) :
    dbSlice db (some s) (some e) false = getSlice db (some s) (some e) := by
  have hclean : cleanKeySlice (some s) (some e) false = (some s, some e, false) := by
    simp [cleanKeySlice, optLtb, h]
  simp only [dbSlice, hclean]

theorem dbSlice_eq_getSliceRev (db : DB) {s e : Bytes} (h : e < s) :
    dbSlice db (some s) (some e) false = getSliceRev db (some s) (some e) := by
  have hclean : cleanKeySlice (some s) (some e) false = (some s, some e, true) := by
    simp [cleanKeySlice, optLtb, h]
  simp only [dbSlice, hclean]

theorem asc_of_dbSlice {db : DB} (hdb : DBSorted db) {s e : Bytes}
    {l : List (Bytes × Bytes)} (hse : s ≤ e)
    (h : dbSlice db (some s) (some e) false = some l) :
    l.Pairwise (fun x y => x.1 < y.1) := by
  rw [dbSlice_eq_getSlice db (not_lt_of_le hse)] at h
  exact List.Pairwise.sublist (getSlice_sublist h) hdb

theorem desc_of_dbSlice {db : DB} (hdb : DBSorted db) {s e : Bytes}
    {l : List (Bytes × Bytes)} (hes : e < s)
    (h : dbSlice db (some s) (some e) false = some l) :
    l.Pairwise (fun x y => y.1 < x.1) := by
  rw [dbSlice_eq_getSliceRev db hes] at h
  refine List.Pairwise.sublist (getSliceRev_sublist h) ?_
  exact List.pairwise_reverse.2 hdb

theorem pairwise_flip_of_const {l : List (Bytes × Bytes)} {c : Bytes}
    (hasc : l.Pairwise (fun x y => x.1 < y.1)) (hall : ∀ kv ∈ l, kv.1 = c) :
    l.Pairwise (fun x y => y.1 < x.1) := by
  cases l with
  | nil => simp
  | cons hd t =>
    cases t with
    | nil => simp
    | cons hd2 t2 =>
      exfalso
      have h1 := (List.pairwise_cons.1 hasc).1 hd2 (by simp)
      have e1 := hall hd (by simp)
      have e2 := hall hd2 (by simp)
      rw [e1, e2] at h1
      exact lt_irrefl _ h1

theorem idxGetKey_lt_iff {n e1 p1 e2 p2 : Bytes} (hlen : e1.length = e2.length) :
    ((idxGetKey n e1 p1 : Bytes) < idxGetKey n e2 p2 ↔
      (e1 < e2 ∨ (e1 = e2 ∧ p1 < p2))) := by
  unfold idxGetKey
  rw [lex_append_left_iff, lex_cons_iff]
  simp only [lt_self_iff_false, false_or, eq_self_iff_true, true_and]
  induction e1 generalizing e2 with
  | nil =>
    cases e2 with
    | nil =>
      simp only [List.nil_append, lex_cons_iff, lt_self_iff_false, false_or,
        eq_self_iff_true, true_and]
    | cons b t2 => simp at hlen
  | cons a t1 ih =>
    cases e2 with
    | nil => simp at hlen
    | cons b t2 =>
      rw [List.cons_append, List.cons_append, lex_cons_iff]
      have hlen2 : t1.length = t2.length := by simpa using hlen
      rw [ih hlen2]
      rcases lt_trichotomy a b with hab | rfl | hba
      · constructor
        · intro _
          exact Or.inl (lex_cons_iff.2 (Or.inl hab))
        · intro _
          exact Or.inl hab
      · simp only [lt_self_iff_false, false_or, eq_self_iff_true, true_and,
          lex_cons_iff, List.cons.injEq]
      · have h1 : ¬ (a < b) := asymm hba
        have h2 : ¬ (a = b) := fun h => absurd hba (h ▸ lt_irrefl _)
        simp only [h1, h2, false_or, false_and, or_false, lex_cons_iff,
          List.cons.injEq, false_iff, not_or]

theorem idxPrefixVal_false_eq (n e : Bytes) : idxPrefixVal n e false = idxPrefix n ++ e := by
  simp [idxPrefixVal, idxPrefix]

theorem idxPrefixVal_true_eq (n e : Bytes) :
    idxPrefixVal n e true = idxPrefix n ++ (e ++ [255]) := by
  simp [idxPrefixVal, idxPrefix]

theorem idxStopKey_eq (n : Bytes) : idxStopKey n = idxPrefix n ++ [255, 255] := by
  simp [idxStopKey, idxPrefix]

/-- C8 (amended): the entries `Index.query` returns are in ascending key
order for `=`, `<`, `<=`, `!=` and `startswith`, but in DESCENDING key order
for `>` and `>=` (whose scans run in reverse from the sentinel; stated for
encoded values not beginning with `\xFF`); and key order coincides with the
claimed (encoded value, pk) lexicographic pair order exactly when the two
encoded values have equal length — as for the fixed-width Long, Float, Date
and DateTime codecs — while proper-prefix encodings of a string field sort
after their extensions because of the `\xFF` separator.  The returned
primary-key strings are the values of the scanned entries in that order. -/
theorem C8_index_query_order (db : DB) (hdb : DBSorted db) (name encVal : Bytes) :
    (∀ l, idxQueryEntries db name encVal Op.eq = some l →
        l.Pairwise (fun x y => x.1 < y.1)) ∧
      (∀ l, idxQueryEntries db name encVal Op.lt = some l →
        l.Pairwise (fun x y => x.1 < y.1)) ∧
      (∀ l, idxQueryEntries db name encVal Op.le = some l →
        l.Pairwise (fun x y => x.1 < y.1)) ∧
      (∀ l, idxQueryEntries db name encVal Op.ne = some l →
        l.Pairwise (fun x y => x.1 < y.1)) ∧
      (∀ l, idxQueryEntries db name encVal Op.startswith = some l →
        l.Pairwise (fun x y => x.1 < y.1)) ∧
      ((encVal = [] ∨ ∃ a t, encVal = a :: t ∧ a < 255) →
        (∀ l, idxQueryEntries db name encVal Op.gt = some l →
          l.Pairwise (fun x y => y.1 < x.1)) ∧
        (∀ l, idxQueryEntries db name encVal Op.ge = some l →
          l.Pairwise (fun x y => y.1 < x.1))) ∧
      (∀ e1 p1 e2 p2 : Bytes, e1.length = e2.length →
        ((idxGetKey name e1 p1 : Bytes) < idxGetKey name e2 p2 ↔
          (e1 < e2 ∨ (e1 = e2 ∧ p1 < p2)))) ∧
      (∀ op, idxQuery db name encVal op =
        (idxQueryEntries db name encVal op).map (List.map Prod.snd)) := by
  refine ⟨?_, ?_, ?_, ?_, ?_, ?_, fun e1 p1 e2 p2 h => idxGetKey_lt_iff h, fun op => rfl⟩
  · intro l h
    rw [idxQueryEntries] at h
    exact asc_of_dbSlice hdb (le_of_lt (bytes_lt_append_self (by simp))) h
  · intro l h
    rw [idxQueryEntries] at h
    have hshape : idxPrefixVal name encVal false ++ [255] =
        idxPrefix name ++ (encVal ++ [255]) := by
      rw [idxPrefixVal_false_eq]
      simp
    rw [hshape] at h
    exact asc_of_dbSlice hdb (le_of_lt (bytes_lt_append_self (by simp))) h
  · intro l h
    rw [idxQueryEntries] at h
    have hshape : idxPrefixVal name encVal false ++ [255] ++ [255] =
        idxPrefix name ++ (encVal ++ [255, 255]) := by
      rw [idxPrefixVal_false_eq]
      simp
    rw [hshape] at h
    exact asc_of_dbSlice hdb (le_of_lt (bytes_lt_append_self (by simp))) h
  · intro l h
    rw [idxQueryEntries] at h
    rcases Option.map_eq_some'.1 h with ⟨rs, hrs, rfl⟩
    rw [idxStopKey_eq] at hrs
    have hasc := asc_of_dbSlice hdb (le_of_lt (bytes_lt_append_self (by simp))) hrs
    exact List.Pairwise.sublist
      ((List.dropLast_sublist _).trans (List.filter_sublist _)) hasc
  · intro l h
    rw [idxQueryEntries] at h
    exact asc_of_dbSlice hdb (le_of_lt (bytes_lt_append_self (by simp))) h
  · intro hhead
    constructor
    · intro l h
      rw [idxQueryEntries] at h
      rcases Option.map_eq_some'.1 h with ⟨rs, hrs, rfl⟩
      rcases hhead with rfl | ⟨a, t, rfl, ha⟩
      · have hshape : idxPrefixVal name [] false ++ [255, 255] = idxStopKey name := by
          rw [idxPrefixVal_false_eq, idxStopKey_eq]
          simp
        rw [hshape] at hrs
        rw [dbSlice_eq_getSlice db (lt_irrefl _)] at hrs
        rw [getSlice_sorted hdb (le_refl _)] at hrs
        obtain rfl : db.filter
            (fun kv => decide (idxStopKey name ≤ kv.1 ∧ kv.1 ≤ idxStopKey name)) = rs := by
          simpa using hrs
        have hall : ∀ kv ∈ db.filter
            (fun kv => decide (idxStopKey name ≤ kv.1 ∧ kv.1 ≤ idxStopKey name)),
            kv.1 = idxStopKey name := by
          intro kv hkv
          have := List.of_mem_filter hkv
          simp only [decide_eq_true_eq] at this
          exact le_antisymm this.2 this.1
        have hasc : (db.filter
            (fun kv => decide (idxStopKey name ≤ kv.1 ∧ kv.1 ≤ idxStopKey name))).Pairwise
            (fun x y => x.1 < y.1) := List.Pairwise.filter _ hdb
        exact List.Pairwise.sublist (List.drop_sublist _ _)
          (pairwise_flip_of_const hasc hall)
      · have hlt : idxPrefixVal name (a :: t) false ++ [255, 255] < idxStopKey name := by
          rw [idxPrefixVal_false_eq, idxStopKey_eq, List.append_assoc]
          refine lex_append_left_iff.2 ?_
          rw [List.cons_append]
          exact List.Lex.rel ha
        have hdesc := desc_of_dbSlice hdb hlt hrs
        exact List.Pairwise.sublist (List.drop_sublist _ _) hdesc
    · intro l h
      rw [idxQueryEntries] at h
      rcases Option.map_eq_some'.1 h with ⟨rs, hrs, rfl⟩
      have hlt : idxPrefixVal name encVal false < idxStopKey name := by
        rw [idxPrefixVal_false_eq, idxStopKey_eq]
        refine lex_append_left_iff.2 ?_
        rcases hhead with rfl | ⟨a, t, rfl, ha⟩
        · exact List.Lex.nil
        · exact List.Lex.rel ha
      have hdesc := desc_of_dbSlice hdb hlt hrs
      exact List.Pairwise.sublist (List.drop_sublist _ _) hdesc

set_option maxRecDepth 4000 in
/-- Witness for C8 at a concrete Long index: the `>` scan at value 1 yields
the entries for 3 then 2 in descending key order, and the key-order
criterion instantiates at equal-length encodings. -/
theorem C8_index_query_order_witness :
    ([(idxGetKey (bytesOf "idx:n:x") (packInt64 3) (packInt64 3), bytesOf "3"),
        (idxGetKey (bytesOf "idx:n:x") (packInt64 2) (packInt64 2), bytesOf "2")] :
      List (Bytes × Bytes)).Pairwise (fun x y => y.1 < x.1) ∧
      ((idxGetKey (bytesOf "idx:n:x") [0] [1] : Bytes) < idxGetKey (bytesOf "idx:n:x") [1] [0] ↔
        (([0] : Bytes) < [1] ∨ (([0] : Bytes) = [1] ∧ ([1] : Bytes) < [0]))) := by
  have h := C8_index_query_order c8LongDb (by decide) (bytesOf "idx:n:x") (packInt64 1)
  constructor
  · refine (h.2.2.2.2.2.1 ?_).1 _ ?_
    · exact Or.inr ⟨0, [0, 0, 0, 0, 0, 0, 1], by decide, by decide⟩
    · decide
  · exact h.2.2.2.2.2.2.1 [0] [1] [1] [0] rfl

/-! ### Model layer: expression trees and `Model.query` (query.py) -/

/-- A declared field: its name, the `index=True` flag, and the codec's
`db_value` on the model's literal type (the encoded bytes of a value). -/
structure FieldSpec (V : Type) where
  name : String
  index : Bool
  enc : V → Bytes

/-- Per-model metadata over one literal type `V`: the lowercased model name
and the declared fields. -/
structure Meta (V : Type) where
  modelName : String
  fields : List (FieldSpec V)

/-- `Metadata.prepared`: the per-model index table `self.indexes`, one entry
per field declared with `index=True`, keyed by field name. -/
def Meta.indexes {V : Type} (m : Meta V) : List (String × FieldSpec V) :=
  (m.fields.filter (fun f => f.index)).map (fun f => (f.name, f))

/-- `Index.name`: `'idx:%s:%s' % (model._meta.name, field.name)`. -/
def idxNameOf (modelName fieldName : String) : Bytes :=
  bytesOf ("idx:" ++ modelName ++ ":" ++ fieldName)

/-- Boolean expression trees over field-vs-literal comparisons
(`Expression` nodes built by the `Node` operator overloads). -/
inductive Expr (V : Type) where
  | leaf (fieldName : String) (op : Op) (value : V)
  | and_ (l r : Expr V)
  | or_ (l r : Expr V)

/-- Errors `Model.query` can raise: `KeyError` from the index-table lookup
`cls._meta.indexes[lhs.name]`, or a `ValueError` escaping a slice (never
actually reachable from the index branches). -/
inductive QueryErr where
  | keyError (field : String)
  | sliceError
deriving DecidableEq

/-- `Model.query`'s recursive `dfs`: a leaf dispatches to
`set(index.query(rhs, expr.op))` after the `indexes[lhs.name]` lookup;
`AND` intersects and `OR` unions the child sets; evaluation is
left-to-right with exceptions propagating. -/
def dfs {V : Type} (m : Meta V) (db : DB) : Expr V → Except QueryErr (Finset Bytes)
  | .leaf fname op value =>
    match m.indexes.lookup fname with
    | none => .error (.keyError fname)
    | some f =>
      match idxQuery db (idxNameOf m.modelName fname) (f.enc value) op with
      | none => .error .sliceError
      | some vs => .ok vs.toFinset
  | .and_ l r => do
    let a ← dfs m db l
    let b ← dfs m db r
    pure (a ∩ b)
  | .or_ l r => do
    let a ← dfs m db l
    let b ← dfs m db r
    pure (a ∪ b)

/-- `Model.query`: run `dfs`, then `sorted(id_list)` — Python sorts the
decimal primary-key strings lexicographically — and load records in that
order.  The record loading itself is not modelled; the id list is the load
order. -/
def modelQueryIds {V : Type} (m : Meta V) (db : DB) (e : Expr V) :
    Except QueryErr (List Bytes) :=
  (dfs m db e).map (fun s => s.sort (· ≤ ·))

theorem dbSlice_ff_isSome (db : DB) (s e : Bytes) :
    ∃ l, dbSlice db (some s) (some e) false = some l := by
  by_cases h : e < s
  · rw [dbSlice_eq_getSliceRev db h]
    rw [getSliceRev, if_neg (by
      rintro ⟨-, hlt⟩
      simp only [pyLtOpt] at hlt
      exact absurd hlt (asymm h))]
    exact ⟨_, rfl⟩
  · rw [dbSlice_eq_getSlice db h]
    rw [getSlice, if_neg (by
      rintro ⟨-, hgt⟩
      simp only [pyGtOpt] at hgt
      exact absurd hgt h)]
    exact ⟨_, rfl⟩

theorem idxQuery_isSome (db : DB) (n e : Bytes) (op : Op) :
    ∃ l, idxQuery db n e op = some l := by
  rw [idxQuery]
  cases op <;> rw [idxQueryEntries]
  case eq => rcases dbSlice_ff_isSome db _ _ with ⟨l, hl⟩; exact ⟨_, by rw [hl]; rfl⟩
  case ne => rcases dbSlice_ff_isSome db _ _ with ⟨l, hl⟩; exact ⟨_, by rw [hl]; rfl⟩
  case lt => rcases dbSlice_ff_isSome db _ _ with ⟨l, hl⟩; exact ⟨_, by rw [hl]; rfl⟩
  case le => rcases dbSlice_ff_isSome db _ _ with ⟨l, hl⟩; exact ⟨_, by rw [hl]; rfl⟩
  case gt => rcases dbSlice_ff_isSome db _ _ with ⟨l, hl⟩; exact ⟨_, by rw [hl]; rfl⟩
  case ge => rcases dbSlice_ff_isSome db _ _ with ⟨l, hl⟩; exact ⟨_, by rw [hl]; rfl⟩
  case startswith =>
    rcases dbSlice_ff_isSome db _ _ with ⟨l, hl⟩
    exact ⟨_, by rw [hl]; rfl⟩

/-- An expression contains a leaf comparing a field that has no entry in the
per-model index table (was not declared `index=True`). -/
def containsUnindexedLeaf {V : Type} (m : Meta V) : Expr V → Prop
  | .leaf f _ _ => m.indexes.lookup f = none
  | .and_ l r => containsUnindexedLeaf m l ∨ containsUnindexedLeaf m r
  | .or_ l r => containsUnindexedLeaf m l ∨ containsUnindexedLeaf m r

instance containsUnindexedLeafDec {V : Type} (m : Meta V) :
    (e : Expr V) → Decidable (containsUnindexedLeaf m e)
  | .leaf f _ _ => by
    unfold containsUnindexedLeaf
    exact Option.decidableEqNone
  | .and_ l r => by
    unfold containsUnindexedLeaf
    have hl := containsUnindexedLeafDec m l
    have hr := containsUnindexedLeafDec m r
    infer_instance
  | .or_ l r => by
    unfold containsUnindexedLeaf
    have hl := containsUnindexedLeafDec m l
    have hr := containsUnindexedLeafDec m r
    infer_instance

theorem dfs_ok_of_indexed {V : Type} (m : Meta V) (db : DB) (e : Expr V)
    (h : ¬ containsUnindexedLeaf m e) : ∃ s, dfs m db e = .ok s := by
  induction e with
  | leaf f op v =>
    rw [containsUnindexedLeaf] at h
    cases hl : m.indexes.lookup f with
    | none => exact absurd hl h
    | some fs =>
      rcases idxQuery_isSome db (idxNameOf m.modelName f) (fs.enc v) op with ⟨vs, hvs⟩
      refine ⟨vs.toFinset, ?_⟩
      simp only [dfs, hl, hvs]
  | and_ l r ihl ihr =>
    rw [containsUnindexedLeaf, not_or] at h
    rcases ihl h.1 with ⟨sa, hsa⟩
    rcases ihr h.2 with ⟨sb, hsb⟩
    refine ⟨sa ∩ sb, ?_⟩
    rw [dfs, hsa, hsb]
    rfl
  | or_ l r ihl ihr =>
    rw [containsUnindexedLeaf, not_or] at h
    rcases ihl h.1 with ⟨sa, hsa⟩
    rcases ihr h.2 with ⟨sb, hsb⟩
    refine ⟨sa ∪ sb, ?_⟩
    rw [dfs, hsa, hsb]
    rfl

theorem dfs_err_of_unindexed {V : Type} (m : Meta V) (db : DB) (e : Expr V)
    (h : containsUnindexedLeaf m e) : ∃ f, dfs m db e = .error (.keyError f) := by
  induction e with
  | leaf f op v =>
    rw [containsUnindexedLeaf] at h
    refine ⟨f, ?_⟩
    rw [dfs, h]
  | and_ l r ihl ihr =>
    by_cases hl : containsUnindexedLeaf m l
    · rcases ihl hl with ⟨f, hf⟩
      refine ⟨f, ?_⟩
      rw [dfs, hf]
      rfl
    · have hr : containsUnindexedLeaf m r := by
        rw [containsUnindexedLeaf] at h
        exact h.resolve_left hl
      rcases dfs_ok_of_indexed m db l hl with ⟨s, hs⟩
      rcases ihr hr with ⟨f, hf⟩
      refine ⟨f, ?_⟩
      rw [dfs, hs, hf]
      rfl
  | or_ l r ihl ihr =>
    by_cases hl : containsUnindexedLeaf m l
    · rcases ihl hl with ⟨f, hf⟩
      refine ⟨f, ?_⟩
      rw [dfs, hf]
      rfl
    · have hr : containsUnindexedLeaf m r := by
        rw [containsUnindexedLeaf] at h
        exact h.resolve_left hl
      rcases dfs_ok_of_indexed m db l hl with ⟨s, hs⟩
      rcases ihr hr with ⟨f, hf⟩
      refine ⟨f, ?_⟩
      rw [dfs, hs, hf]
      rfl

/-- C10: `Model.query` on an expression containing a leaf that compares a
field without an entry in the per-model index table (not declared
`index=True`) raises a lookup error (`KeyError`): it neither scans records
nor returns an empty result. -/
theorem C10_unindexed_field_error {V : Type} (m : Meta V) (db : DB) (e : Expr V)
    (h : containsUnindexedLeaf m e) :
    ∃ f, modelQueryIds m db e = .error (.keyError f) := by
  rcases dfs_err_of_unindexed m db e h with ⟨f, hf⟩
  refine ⟨f, ?_⟩
  rw [modelQueryIds, hf]
  rfl

/-- The concrete model used for C10's witness: field `x` indexed, field `y`
not indexed. -/
def c10Meta : Meta Int :=
  ⟨"n", [⟨"x", true, fun v => packInt64 v⟩, ⟨"y", false, fun v => packInt64 v⟩]⟩

/-- Witness for C10: querying on the unindexed field `y` errors. -/
theorem C10_unindexed_field_error_witness :
    ∃ f, modelQueryIds c10Meta [] (Expr.leaf "y" Op.eq 5) = .error (.keyError f) :=
  C10_unindexed_field_error c10Meta [] (Expr.leaf "y" Op.eq 5) (by decide)

instance {ε α : Type} [DecidableEq ε] [DecidableEq α] : DecidableEq (Except ε α)
  | .error e1, .error e2 =>
    decidable_of_iff (e1 = e2) ⟨by rintro rfl; rfl, fun h => by injection h⟩
  | .error _, .ok _ => isFalse (fun h => Except.noConfusion h)
  | .ok _, .error _ => isFalse (fun h => Except.noConfusion h)
  | .ok a1, .ok a2 =>
    decidable_of_iff (a1 = a2) ⟨by rintro rfl; rfl, fun h => by injection h⟩

/-- Concrete model for C4: model `n`, Long field `x` indexed. -/
def c4Meta : Meta Int := ⟨"n", [⟨"x", true, fun v => packInt64 v⟩]⟩

/-- Concrete index state for C4: `x = 5` at pk 2 and `x = 7` at pk 10, plus
the sentinel. -/
def c4Db : DB :=
  [(idxGetKey (idxNameOf "n" "x") (packInt64 5) (packInt64 2), bytesOf "2"),
   (idxGetKey (idxNameOf "n" "x") (packInt64 7) (packInt64 10), bytesOf "10"),
   (idxStopKey (idxNameOf "n" "x"), [])]

theorem sort_pair {a b : Bytes} (hab : a ≤ b) (hne : a ≠ b) :
    (({a, b} : Finset Bytes)).sort (· ≤ ·) = [a, b] := by
  haveI : IsAntisymm Bytes (· ≤ ·) := ⟨fun x y => le_antisymm⟩
  refine List.eq_of_perm_of_sorted ?_ (Finset.sort_sorted _ _) ?_
  · refine (Finset.sort_perm_toList _ _).trans ?_
    have h1 : a ∉ ({b} : Finset Bytes) := by simp [hne]
    refine (Finset.toList_insert h1).trans ?_
    rw [Finset.toList_singleton]
  · simp [List.sorted_cons, hab]

set_option maxRecDepth 8000 in
/-- C4 counterexample: with matching pks 2 and 10, `Model.query` loads pk
`"10"` first — `sorted(id_list)` sorts the decimal id strings
lexicographically, and `"10" < "2"` — although numerically 10 > 2, so the
load order is not ascending primary-key order. -/
theorem C4_counterexample :
    modelQueryIds c4Meta c4Db (Expr.leaf "x" Op.lt 100) =
        .ok [bytesOf "10", bytesOf "2"] ∧
      parseDec (bytesOf "2") < parseDec (bytesOf "10") := by
  constructor
  · have hdfs : dfs c4Meta c4Db (Expr.leaf "x" Op.lt 100) =
        .ok ({bytesOf "10", bytesOf "2"} : Finset Bytes) := by decide
    rw [modelQueryIds, hdfs]
    show Except.ok (({bytesOf "10", bytesOf "2"} : Finset Bytes).sort (· ≤ ·)) =
      Except.ok [bytesOf "10", bytesOf "2"]
    rw [sort_pair (by decide) (by decide)]
  · decide

/-- C4 (amended): for every expression tree, the id set for `A AND B` is the
intersection and for `A OR B` the union of the children's id sets; the
top-level call sorts the final id set and loads records in ascending
LEXICOGRAPHIC order of the decimal primary-key strings (which agrees with
numeric pk order only while the ids have equal digit counts). -/
theorem C4_query_set_semantics {V : Type} (m : Meta V) (db : DB) (A B : Expr V)
    (sa sb : Finset Bytes) (ha : dfs m db A = .ok sa) (hb : dfs m db B = .ok sb) :
    dfs m db (Expr.and_ A B) = .ok (sa ∩ sb) ∧
      dfs m db (Expr.or_ A B) = .ok (sa ∪ sb) ∧
      modelQueryIds m db (Expr.and_ A B) = .ok ((sa ∩ sb).sort (· ≤ ·)) ∧
      List.Sorted (· ≤ ·) ((sa ∩ sb).sort (· ≤ ·)) := by
  have h1 : dfs m db (Expr.and_ A B) = .ok (sa ∩ sb) := by
    rw [dfs, ha, hb]
    rfl
  have h2 : dfs m db (Expr.or_ A B) = .ok (sa ∪ sb) := by
    rw [dfs, ha, hb]
    rfl
  refine ⟨h1, h2, ?_, Finset.sort_sorted _ _⟩
  rw [modelQueryIds, h1]
  rfl

set_option maxRecDepth 8000 in
/-- Witness for C4 at the concrete index state. -/
theorem C4_query_set_semantics_witness :
    dfs c4Meta c4Db (Expr.and_ (Expr.leaf "x" Op.lt 100) (Expr.leaf "x" Op.gt 6)) =
        .ok (({bytesOf "10", bytesOf "2"} : Finset Bytes) ∩ {bytesOf "10"}) ∧
      dfs c4Meta c4Db (Expr.or_ (Expr.leaf "x" Op.lt 100) (Expr.leaf "x" Op.gt 6)) =
        .ok (({bytesOf "10", bytesOf "2"} : Finset Bytes) ∪ {bytesOf "10"}) ∧
      modelQueryIds c4Meta c4Db
          (Expr.and_ (Expr.leaf "x" Op.lt 100) (Expr.leaf "x" Op.gt 6)) =
        .ok ((({bytesOf "10", bytesOf "2"} : Finset Bytes) ∩ {bytesOf "10"}).sort (· ≤ ·)) ∧
      List.Sorted (· ≤ ·)
        ((({bytesOf "10", bytesOf "2"} : Finset Bytes) ∩ {bytesOf "10"}).sort (· ≤ ·)) :=
  C4_query_set_semantics c4Meta c4Db (Expr.leaf "x" Op.lt 100) (Expr.leaf "x" Op.gt 6)
    {bytesOf "10", bytesOf "2"} {bytesOf "10"} (by decide) (by decide)

/-! ### `Model._save` / `_update_indexes` at a concrete model (C1)

The concrete model is `person` with one indexed string field `f` and the
implicit `id` LongField, `serialize=False`.  Record keys are
`person:<id>:<field>`, the id sequence key is `id_seq:person`. -/

/-- `Metadata.get_instance_key`: `'%s:%s' % (self.name, instance_id)`. -/
def instanceKey (modelName : String) (pk : Int) : Bytes :=
  bytesOf (modelName ++ ":") ++ decimalOf pk.toNat

/-- A per-field record key `'%s:%s' % (instance_key, field.name)`
(`serialize=False` storage). -/
def fieldKey (modelName : String) (pk : Int) (fieldName : String) : Bytes :=
  instanceKey modelName pk ++ bytesOf (":" ++ fieldName)

/-- `incr` as `Metadata.next_id` uses it: read the 8-byte big-endian
counter (0 when absent), add one, store, return the new value. -/
def dbIncr (db : DB) (key : Bytes) : DB × Int :=
  let v : Int :=
    match dbGet db key with
    | none => 0
    | some b => unpackInt64 b
  (dbPut db key (packInt64 (v + 1)), v + 1)

def personIdxName : Bytes := idxNameOf "person" "f"

/-- `Model._save` for the concrete `person` model, mirroring
`_read_indexed_data`, `_save_model_data` and `_update_indexes`.  The
faithful detail under test: when the prior indexed value differs,
`_update_indexes` calls `index.delete(value, primary_key)` with the NEW
`value` (`getattr(self, field)`), not the stored prior value, before
re-storing that same new value.  A `KeyError` while loading the prior
record value aborts (`none`). -/
def personSave (db : DB) (inst : Option Int × Bytes) : Option (DB × Int × Bytes) :=
  let oid := inst.1
  let fv := inst.2
  let origRes : Option (Option Bytes) :=
    match oid with
    | some i =>
      if i ≠ 0 then
        match dbGet db (fieldKey "person" i "f") with
        | some b => some (some b)
        | none => none
      else some none
    | none => some none
  match origRes with
  | none => none
  | some original =>
    let next :=
      match oid with
      | some i => if i ≠ 0 then (db, i) else dbIncr db (bytesOf "id_seq:person")
      | none => dbIncr db (bytesOf "id_seq:person")
    let db1 := next.1
    let pk := next.2
    let db2 := dbPut db1 (fieldKey "person" pk "f") fv
    let db3 := dbPut db2 (fieldKey "person" pk "id") (packInt64 pk)
    let db4 :=
      match original with
      | some old => if old ≠ fv then idxDelete db3 personIdxName fv pk else db3
      | none => db3
    let db5 := idxStore db4 personIdxName fv pk
    let db6 := idxStoreEndpoint db5 personIdxName
    some (db6, pk, fv)

/-- Create `f="a"` (allocating pk 1), then save the same record mutated to
`f="b"`. -/
def c1Final : Option (DB × Int × Bytes) :=
  match personSave [] (none, bytesOf "a") with
  | some (db1, pk1, _) => personSave db1 (some pk1, bytesOf "b")
  | none => none

set_option maxRecDepth 8000 in
/-- C1: evaluating the save path at the failing input.  After creating the
record with `f = "a"` (pk 1) and then saving it with `f = "b"`,
`Index.query("a", '=')` still returns pk `"1"` — the stale entry for the
prior value remains, because `_update_indexes` deleted the key of the NEW
value instead of the old one — while the stored record field is `"b"`.
This falsifies the index/record correspondence and the old-entry deletion
stated by the claim; the code contradicts its own comment ("remove the old
value"). -/
theorem C1_stale_index_bug :
    c1Final.map (fun r => idxQuery r.1 personIdxName (bytesOf "a") Op.eq) =
        some (some [bytesOf "1"]) ∧
      c1Final.map (fun r => dbGet r.1 (fieldKey "person" 1 "f")) =
        some (some (bytesOf "b")) := by
  decide

/-! ### Hexastore (graph.py): `keys_for_values`, `store`, `delete` (C6)

Keys and values are byte strings; `::` is the two bytes 58 58, `"` is 34,
the braces are 123/125. -/

/-- One permutation key of `Hexastore.keys_for_values`:
`'::'.join((prefix, label, v1, v2, v3))`. -/
def hexKey (pre lbl v1 v2 v3 : Bytes) : Bytes :=
  pre ++ [58, 58] ++ lbl ++ [58, 58] ++ v1 ++ [58, 58] ++ v2 ++ [58, 58] ++ v3

/-- The six orderings produced by `itertools.permutations(zip('spo', (s, p, o)))`,
in `itertools` index order: each entry is the 3-letter label paired with the
three values in that order. -/
def hexPerms (s p o : Bytes) : List (Bytes × Bytes × Bytes × Bytes) :=
  [(bytesOf "spo", s, p, o),
   (bytesOf "sop", s, o, p),
   (bytesOf "pso", p, s, o),
   (bytesOf "pos", p, o, s),
   (bytesOf "osp", o, s, p),
   (bytesOf "ops", o, p, s)]

/-- `Hexastore.keys_for_values(s, p, o)` with store prefix `pre`. -/
def keysForValues (pre s p o : Bytes) : List Bytes :=
  (hexPerms s p o).map (fun q => hexKey pre q.1 q.2.1 q.2.2.1 q.2.2.2)

/-- JSON string-body escaping as `json.dumps` performs it on byte values
without control characters: quote (34) and backslash (92) get a backslash
prefix. -/
def jsonEscape (b : Bytes) : Bytes :=
  b.flatMap (fun c => if c = 34 ∨ c = 92 then [92, c] else [c])

/-- A JSON string literal: quote, escaped body, quote. -/
def jsonStr (b : Bytes) : Bytes := 34 :: (jsonEscape b ++ [34])

/-- `json.dumps({'s': s, 'p': p, 'o': o})` with the members laid out in the
order s, p, o.  (CPython's dict iteration order for these three keys is an
implementation detail; the fan-out property only uses that all six
permutation keys receive this one serialized value.) -/
def jsonTriple (s p o : Bytes) : Bytes :=
  [123] ++ jsonStr (bytesOf "s") ++ [58, 32] ++ jsonStr s ++
    [44, 32] ++ jsonStr (bytesOf "p") ++ [58, 32] ++ jsonStr p ++
    [44, 32] ++ jsonStr (bytesOf "o") ++ [58, 32] ++ jsonStr o ++ [125]

/-- `Hexastore.store`: build the dict mapping each permutation key to the
serialized triple, then write it in one bulk `database.update`. -/
def hexStore (db : DB) (pre s p o : Bytes) : DB :=
  dbUpdate db ((keysForValues pre s p o).map (fun k => (k, jsonTriple s p o)))

/-- `Hexastore.delete`: `del database[key]` for each permutation key. -/
def hexDelete (db : DB) (pre s p o : Bytes) : DB :=
  (keysForValues pre s p o).foldl dbDel db

theorem hexKey_label_eq {pre l1 l2 a1 b1 c1 a2 b2 c2 : Bytes}
    (hlen : l1.length = l2.length)
    (h : hexKey pre l1 a1 b1 c1 = hexKey pre l2 a2 b2 c2) : l1 = l2 := by
  unfold hexKey at h
  simp only [List.append_assoc, List.cons_append, List.nil_append] at h
  have h2 := List.append_cancel_left h
  simp only [List.cons.injEq, true_and] at h2
  exact List.append_inj_left h2 hlen

theorem keysForValues_nodup (pre s p o : Bytes) : (keysForValues pre s p o).Nodup := by
  have hlbl : ((hexPerms s p o).map (fun q => q.1)).Nodup := by
    simp only [hexPerms, List.map_cons, List.map_nil]
    decide
  have hlen3 : ∀ q ∈ hexPerms s p o, q.1.length = 3 := by
    intro q hq
    simp only [hexPerms, List.mem_cons, List.not_mem_nil, or_false] at hq
    rcases hq with rfl | rfl | rfl | rfl | rfl | rfl <;> rfl
  refine List.Nodup.map_on ?_ (List.Nodup.of_map _ hlbl)
  intro x hx y hy hf
  refine List.inj_on_of_nodup_map hlbl hx hy ?_
  exact hexKey_label_eq (by rw [hlen3 x hx, hlen3 y hy]) hf

theorem dbGet_foldl_dbDel (d : DB) (l : List Bytes) (k : Bytes) :
    dbGet (l.foldl dbDel d) k = if k ∈ l then none else dbGet d k := by
  induction l generalizing d with
  | nil => simp
  | cons a t ih =>
    rw [List.foldl_cons, ih]
    by_cases hk : k ∈ t
    · simp [hk]
    · by_cases ha : k = a
      · simp [hk, ha, dbGet_dbDel]
      · simp [hk, ha, dbGet_dbDel]

/-- C6: `Hexastore.store(s, p, o)` writes exactly six keys — one per
permutation of (s, p, o), of the form `prefix::label::v1::v2::v3` — all
pairwise distinct (the 3-letter labels differ), each holding the JSON
serialization of the triple, in one bulk `database.update`; keys outside
the six are untouched.  `Hexastore.delete(s, p, o)` removes exactly those
six keys: after store-then-delete every permutation key is absent and
every other key holds its original value. -/
theorem C6_hexastore_fanout (db : DB) (pre s p o : Bytes) :
    (keysForValues pre s p o).length = 6 ∧
      (keysForValues pre s p o).Nodup ∧
      hexStore db pre s p o =
        dbUpdate db ((keysForValues pre s p o).map (fun k => (k, jsonTriple s p o))) ∧
      (∀ k ∈ keysForValues pre s p o,
        dbGet (hexStore db pre s p o) k = some (jsonTriple s p o)) ∧
      (∀ k, k ∉ keysForValues pre s p o →
        dbGet (hexStore db pre s p o) k = dbGet db k) ∧
      (∀ k ∈ keysForValues pre s p o,
        dbGet (hexDelete (hexStore db pre s p o) pre s p o) k = none) ∧
      (∀ k, k ∉ keysForValues pre s p o →
        dbGet (hexDelete (hexStore db pre s p o) pre s p o) k = dbGet db k) := by
  have hnd := keysForValues_nodup pre s p o
  have hpair : ((keysForValues pre s p o).map
      (fun k => (k, jsonTriple s p o))).Pairwise (fun x y => x.1 ≠ y.1) := by
    refine List.Pairwise.map _ ?_ hnd
    intro x y hxy
    simpa using hxy
  refine ⟨rfl, hnd, rfl, ?_, ?_, ?_, ?_⟩
  · intro k hk
    exact dbGet_dbUpdate_mem db (List.mem_map_of_mem _ hk) hpair
  · intro k hk
    refine dbGet_dbUpdate_notMem db ?_
    intro kv hkv
    rcases List.mem_map.1 hkv with ⟨k', hk', rfl⟩
    intro hcontra
    exact hk (hcontra ▸ hk')
  · intro k hk
    rw [hexDelete, dbGet_foldl_dbDel, if_pos hk]
  · intro k hk
    rw [hexDelete, dbGet_foldl_dbDel, if_neg hk]
    refine dbGet_dbUpdate_notMem db ?_
    intro kv hkv
    rcases List.mem_map.1 hkv with ⟨k', hk', rfl⟩
    intro hcontra
    exact hk (hcontra ▸ hk')

/-- Witness for C6 at a concrete triple and empty store. -/
theorem C6_hexastore_fanout_witness :
    (hexKey (bytesOf "g") (bytesOf "spo") (bytesOf "a") (bytesOf "p") (bytesOf "b") ∈
        keysForValues (bytesOf "g") (bytesOf "a") (bytesOf "p") (bytesOf "b")) ∧
      dbGet (hexStore [] (bytesOf "g") (bytesOf "a") (bytesOf "p") (bytesOf "b"))
          (hexKey (bytesOf "g") (bytesOf "spo") (bytesOf "a") (bytesOf "p") (bytesOf "b")) =
        some (jsonTriple (bytesOf "a") (bytesOf "p") (bytesOf "b")) ∧
      dbGet
          (hexDelete (hexStore [] (bytesOf "g") (bytesOf "a") (bytesOf "p") (bytesOf "b"))
            (bytesOf "g") (bytesOf "a") (bytesOf "p") (bytesOf "b"))
          (hexKey (bytesOf "g") (bytesOf "spo") (bytesOf "a") (bytesOf "p") (bytesOf "b")) =
        none :=
  ⟨by decide,
   (C6_hexastore_fanout [] (bytesOf "g") (bytesOf "a") (bytesOf "p") (bytesOf "b")).2.2.2.1
     _ (by decide),
   (C6_hexastore_fanout [] (bytesOf "g") (bytesOf "a") (bytesOf "p") (bytesOf "b")).2.2.2.2.2.1
     _ (by decide)⟩

/-! ### Hexastore search (graph.py `Hexastore.search`) (C5)

`Hexastore.query(s?, p?, o?)` dispatches through `keys_for_query` to the
permutation index whose prefix fixes exactly the given parts, so over a
store maintained by `Hexastore.store`/`delete` it yields exactly the
stored triples matching the fixed parts (the fan-out property above).
For the search-level claim we therefore model the store as the list of
its triples and `query` as pattern filtering on it.  Triple components
and variable names are strings; `results` is keyed by variable name (in
the source it is keyed by the `Variable` object, and each name denotes
one shared object in the query patterns the API builds). -/

abbrev GTriple := String × String × String

abbrev GDB := List GTriple

abbrev GPattern := Option String × Option String × Option String

inductive GPart where
  | s
  | p
  | o
deriving DecidableEq

/-- Extract one component of a triple. -/
def partVal : GPart → GTriple → String
  | .s, t => t.1
  | .p, t => t.2.1
  | .o, t => t.2.2

/-- A term of a search condition: a concrete value or a `Variable`. -/
inductive GTerm where
  | val (v : String)
  | var (n : String)
deriving DecidableEq

abbrev GCond := GTerm × GTerm × GTerm

/-- The fixed-part pattern of a condition: `query = condition.copy()` with
every `Variable` part popped. -/
def termOpt : GTerm → Option String
  | .val v => some v
  | .var _ => none

def patOf (c : GCond) : GPattern := (termOpt c.1, termOpt c.2.1, termOpt c.2.2)

/-- The variable occurrences of a condition, in the order the source
collects them (`for part in ('s', 'p', 'o')`); `var_map.items()` is
modelled as iterating in that insertion order. -/
def occs (c : GCond) : List (GPart × String) :=
  (match c.1 with | .var n => [(GPart.s, n)] | _ => []) ++
    (match c.2.1 with | .var n => [(GPart.p, n)] | _ => []) ++
    (match c.2.2 with | .var n => [(GPart.o, n)] | _ => [])

/-- Does a triple match a fixed-part pattern (what `Hexastore.query`
returns over the permutation store)? -/
def matchesPat (pat : GPattern) (t : GTriple) : Bool :=
  pat.1.all (fun v => v == t.1) && pat.2.1.all (fun v => v == t.2.1) &&
    pat.2.2.all (fun v => v == t.2.2)

/-- The per-occurrence match set: the `part` components of the stored
triples matching the condition's fixed parts (other variables of the same
condition are wildcards, exactly as in the source, where every variable
part has been popped from `query` before any occurrence is processed). -/
def matchSet (db : GDB) (pat : GPattern) (part : GPart) : Finset String :=
  ((db.filter (matchesPat pat)).map (partVal part)).toFinset

/-- Lookup in the `results` dict (keyed by variable name). -/
def resGet : List (String × Finset String) → String → Option (Finset String)
  | [], _ => none
  | (y, S) :: t, x => if y = x then some S else resGet t x

/-- Write/overwrite one entry of the `results` dict. -/
def resSet : List (String × Finset String) → String → Finset String →
    List (String × Finset String)
  | [], x, S => [(x, S)]
  | (y, T) :: t, x, S => if y = x then (x, S) :: t else (y, T) :: resSet t x S

/-- Process one variable occurrence of a condition, as the
`for part, var in var_map_items` body does: if the variable is new,
`results[var]` becomes the match set; otherwise
`results[var] = results[var] & result_map[part]`, where
`result_map[part]` collects `result[part]` of the queries re-run with
`query[part] = val` for each previously collected `val` — which is
`results[var] ∩ matchSet`, so the update is the intersection with the
match set. -/
def applyOcc (db : GDB) (pat : GPattern) (rs : List (String × Finset String))
    (oc : GPart × String) : List (String × Finset String) :=
  match resGet rs oc.2 with
  | some S => resSet rs oc.2 (S ∩ matchSet db pat oc.1)
  | none => resSet rs oc.2 (matchSet db pat oc.1)

/-- Process one condition of `Hexastore.search`. -/
def stepCond (db : GDB) (rs : List (String × Finset String)) (c : GCond) :
    List (String × Finset String) :=
  (occs c).foldl (applyOcc db (patOf c)) rs

/-- `Hexastore.search(conditions)`: fold the per-condition step over the
conditions starting from empty `results`. -/
def hexSearch (db : GDB) (conds : List GCond) : List (String × Finset String) :=
  conds.foldl (stepCond db) []

/-- One accumulation step on a single variable's result set: first
occurrence installs the match set, later occurrences intersect. -/
def applyM : Option (Finset String) → Finset String → Option (Finset String)
  | none, M => some M
  | some S, M => some (S ∩ M)

/-- All match sets contributed to variable `x`, one per occurrence of `x`
in the conditions, in condition order. -/
def occMatchSets (db : GDB) (conds : List GCond) (x : String) : List (Finset String) :=
  conds.flatMap (fun c =>
    ((occs c).filter (fun oc => oc.2 == x)).map (fun oc => matchSet db (patOf c) oc.1))

theorem resGet_resSet (rs : List (String × Finset String)) (n x : String) (S : Finset String) :
    resGet (resSet rs n S) x = if n = x then some S else resGet rs x := by
  induction rs with
  | nil => simp [resSet, resGet]
  | cons hd t ih =>
    obtain ⟨y, T⟩ := hd
    by_cases hyn : y = n
    · subst hyn
      rw [resSet, if_pos rfl, resGet, resGet]
      by_cases hyx : y = x <;> simp [hyx]
    · rw [resSet, if_neg hyn, resGet, resGet, ih]
      by_cases hyx : y = x
      · have : ¬ n = x := fun h => hyn (hyx.trans h.symm)
        simp [hyx, this]
      · simp [hyx]

theorem resGet_applyOcc (db : GDB) (pat : GPattern) (rs : List (String × Finset String))
    (oc : GPart × String) (x : String) :
    resGet (applyOcc db pat rs oc) x =
      if oc.2 = x then applyM (resGet rs x) (matchSet db pat oc.1) else resGet rs x := by
  by_cases hx : oc.2 = x
  · subst hx
    cases h : resGet rs oc.2 with
    | none => simp [applyOcc, h, resGet_resSet, applyM]
    | some S => simp [applyOcc, h, resGet_resSet, applyM]
  · cases h : resGet rs oc.2 with
    | none => simp [applyOcc, h, resGet_resSet, hx]
    | some S => simp [applyOcc, h, resGet_resSet, hx]

theorem resGet_foldl_applyOcc (db : GDB) (pat : GPattern) (l : List (GPart × String))
    (rs : List (String × Finset String)) (x : String) :
    resGet (l.foldl (applyOcc db pat) rs) x =
      ((l.filter (fun oc => oc.2 == x)).map (fun oc => matchSet db pat oc.1)).foldl
        applyM (resGet rs x) := by
  induction l generalizing rs with
  | nil => rfl
  | cons oc t ih =>
    rw [List.foldl_cons, ih, resGet_applyOcc]
    by_cases hx : oc.2 = x
    · have hb : (oc.2 == x) = true := beq_iff_eq.2 hx
      simp [List.filter_cons, hb, hx]
    · have hb : (oc.2 == x) = false := by simp [hx]
      simp [List.filter_cons, hb, hx]

theorem resGet_foldl_stepCond (db : GDB) (conds : List GCond)
    (rs : List (String × Finset String)) (x : String) :
    resGet (conds.foldl (stepCond db) rs) x =
      (occMatchSets db conds x).foldl applyM (resGet rs x) := by
  induction conds generalizing rs with
  | nil => rfl
  | cons c t ih =>
    rw [List.foldl_cons, ih]
    simp only [occMatchSets, List.flatMap_cons, List.foldl_append]
    rw [stepCond, resGet_foldl_applyOcc]

theorem foldl_applyM_some (l : List (Finset String)) (T : Finset String) :
    ∃ S, l.foldl applyM (some T) = some S ∧
      ∀ v, v ∈ S ↔ v ∈ T ∧ ∀ M ∈ l, v ∈ M := by
  induction l generalizing T with
  | nil => exact ⟨T, rfl, fun v => by simp⟩
  | cons M t ih =>
    obtain ⟨S, hS, hmem⟩ := ih (T ∩ M)
    refine ⟨S, by rw [List.foldl_cons, applyM, hS], fun v => ?_⟩
    rw [hmem v, Finset.mem_inter]
    constructor
    · rintro ⟨⟨hT, hM⟩, hall⟩
      exact ⟨hT, fun N hN => by
        rcases List.mem_cons.1 hN with rfl | hN'
        · exact hM
        · exact hall N hN'⟩
    · rintro ⟨hT, hall⟩
      exact ⟨⟨hT, hall M (List.mem_cons_self _ _)⟩,
        fun N hN => hall N (List.mem_cons_of_mem _ hN)⟩

theorem foldl_applyM_none (l : List (Finset String)) :
    (l = [] ∧ l.foldl applyM none = none) ∨
      (l ≠ [] ∧ ∃ S, l.foldl applyM none = some S ∧
        ∀ v, v ∈ S ↔ ∀ M ∈ l, v ∈ M) := by
  cases l with
  | nil => exact Or.inl ⟨rfl, rfl⟩
  | cons M t =>
    refine Or.inr ⟨by simp, ?_⟩
    obtain ⟨S, hS, hmem⟩ := foldl_applyM_some t M
    refine ⟨S, by rw [List.foldl_cons, applyM, hS], fun v => ?_⟩
    rw [hmem v]
    constructor
    · rintro ⟨hM, hall⟩ N hN
      rcases List.mem_cons.1 hN with rfl | hN'
      · exact hM
      · exact hall N hN'
    · intro hall
      exact ⟨hall M (List.mem_cons_self _ _),
        fun N hN => hall N (List.mem_cons_of_mem _ hN)⟩

theorem foldl_applyM_perm {l1 l2 : List (Finset String)} (hp : l1.Perm l2) :
    l1.foldl applyM none = l2.foldl applyM none := by
  rcases foldl_applyM_none l1 with ⟨h1e, h1⟩ | ⟨h1ne, S1, h1, hm1⟩
  · subst h1e
    rw [(hp.symm).eq_nil, h1]
  · rcases foldl_applyM_none l2 with ⟨h2e, h2⟩ | ⟨h2ne, S2, h2, hm2⟩
    · exact absurd (h2e ▸ hp).eq_nil h1ne
    · rw [h1, h2]
      refine congrArg some (Finset.ext fun v => ?_)
      rw [hm1 v, hm2 v]
      exact ⟨fun h M hM => h M (hp.mem_iff.2 hM), fun h M hM => h M (hp.mem_iff.1 hM)⟩

/-- C5 (amended): for every variable `x`, `search` returns (exactly when
`x` occurs in some condition) the fold of per-occurrence intersections:
its set is the intersection of the match sets of `x`'s occurrences, where
each occurrence's match set is computed against that condition's fixed
parts alone (other variables wildcarded, no propagation between
conditions); hence the elements are those values matching every occurrence
of `x` separately — weaker than simultaneous consistency of all
conditions — and the result is independent of the order of the
conditions. -/
theorem C5_search_intersection_semantics (db : GDB) (conds conds2 : List GCond)
    (x : String) (hperm : conds2.Perm conds) :
    resGet (hexSearch db conds) x = (occMatchSets db conds x).foldl applyM none ∧
      (∀ S, resGet (hexSearch db conds) x = some S →
        ∀ v, v ∈ S ↔ ∀ M ∈ occMatchSets db conds x, v ∈ M) ∧
      resGet (hexSearch db conds2) x = resGet (hexSearch db conds) x := by
  have hchar : ∀ cs : List GCond,
      resGet (hexSearch db cs) x = (occMatchSets db cs x).foldl applyM none := by
    intro cs
    rw [hexSearch, resGet_foldl_stepCond]
    rfl
  refine ⟨hchar conds, ?_, ?_⟩
  · intro S hS v
    rw [hchar conds] at hS
    rcases foldl_applyM_none (occMatchSets db conds x) with ⟨_, h⟩ | ⟨_, S', h, hmem⟩
    · rw [h] at hS
      exact absurd hS (by simp)
    · rw [h] at hS
      cases hS
      exact hmem v
  · rw [hchar conds, hchar conds2]
    exact foldl_applyM_perm (hperm.flatMap_right _)

/-! Specification-modelled meaning of C5's claim text ("for each variable
exactly the set of values consistent with all conditions simultaneously"):
enumerate assignments of the condition variables to values occurring in
the store and keep those under which every condition, fully substituted,
is a stored triple. -/

def gvarsOf (conds : List GCond) : List String :=
  (conds.flatMap (fun c => (occs c).map (fun oc => oc.2))).dedup

def gUniverse (db : GDB) : List String :=
  db.flatMap (fun t => [t.1, t.2.1, t.2.2])

def assignList : List String → List String → List (List (String × String))
  | [], _ => [[]]
  | v :: t, univ => (assignList t univ).flatMap (fun a => univ.map (fun w => (v, w) :: a))

def lookupA : List (String × String) → String → String
  | [], _ => ""
  | (y, w) :: t, x => if y = x then w else lookupA t x

def substTerm (a : List (String × String)) : GTerm → String
  | .val v => v
  | .var n => lookupA a n

def condHolds (db : GDB) (a : List (String × String)) (c : GCond) : Bool :=
  db.contains (substTerm a c.1, substTerm a c.2.1, substTerm a c.2.2)

/-- Spec-modelled (not from the source): the set of values of `x` under
assignments consistent with ALL conditions simultaneously. -/
def searchSpecConsistent (db : GDB) (conds : List GCond) (x : String) : Finset String :=
  (((assignList (gvarsOf conds) (gUniverse db)).filter
      (fun a => conds.all (condHolds db a))).map (fun a => lookupA a x)).toFinset

def c5Db : GDB := [("a", "p", "b"), ("d", "p", "e"), ("a", "q", "c")]

def c5Conds : List GCond :=
  [(GTerm.var "X", GTerm.val "p", GTerm.var "Y"),
   (GTerm.var "X", GTerm.val "q", GTerm.val "c")]

/-- C5 counterexample: store `{(a,p,b), (d,p,e), (a,q,c)}`, conditions
`(X, p, Y)` and `(X, q, c)`.  The only simultaneously consistent
assignment is `X = a, Y = b`, so the consistent set for `Y` is `{b}`; but
`search` computes `Y`'s set from its single occurrence in the first
condition alone (match set `{b, e}`) and the later narrowing of `X` to
`{a}` is never propagated back, so `search` reports `Y = {b, e}`,
containing the inconsistent value `e`. -/
theorem C5_counterexample :
    resGet (hexSearch c5Db c5Conds) "Y" = some ({"b", "e"} : Finset String) ∧
      ("e" : String) ∈ ({"b", "e"} : Finset String) ∧
      searchSpecConsistent c5Db c5Conds "Y" = ({"b"} : Finset String) ∧
      ("e" : String) ∉ searchSpecConsistent c5Db c5Conds "Y" := by
  decide

/-- Witness for C5 at the concrete store, with the conditions also given
in the reversed order. -/
theorem C5_search_intersection_semantics_witness :
    resGet (hexSearch c5Db c5Conds) "Y" =
        (occMatchSets c5Db c5Conds "Y").foldl applyM none ∧
      (∀ S, resGet (hexSearch c5Db c5Conds) "Y" = some S →
        ∀ v, v ∈ S ↔ ∀ M ∈ occMatchSets c5Db c5Conds "Y", v ∈ M) ∧
      resGet (hexSearch c5Db c5Conds.reverse) "Y" = resGet (hexSearch c5Db c5Conds) "Y" :=
  C5_search_intersection_semantics c5Db c5Conds c5Conds.reverse "Y" (by decide)

end KVKit
